import Mathlib

/-!
Verification development for the forge code-indexing service.

The Rust sources are embedded shallowly: strings are lists of characters
(`Str`), byte lengths are computed with `Char.utf8Size`, and the `f32`
similarity arithmetic of the chunker is carried out exactly as unnormalized
fractions over `Nat` (`Frac`).
Rust's Unicode-aware character classes (`char::is_whitespace`,
`char::is_alphanumeric`, `char::to_lowercase`) are modelled by Lean's
ASCII-oriented `Char` predicates; every concrete input used below is ASCII,
where the two agree.
-/

set_option maxRecDepth 4000

namespace Forge

/-- Rust `&str` / `String` values, modelled as lists of characters. -/
abbrev Str := List Char

/-- Rust `str::len`: the length in UTF-8 bytes. -/
def byteSize (s : Str) : Nat := (s.map Char.utf8Size).sum

/-- Rust `str::split(sep)` for a one-character separator, keeping empty
pieces, as in `path.split('/')` (index_svc.rs:303). -/
def splitOnChar (sep : Char) : Str → List Str
  | [] => [[]]
  | c :: rest =>
    let r := splitOnChar sep rest
    if c = sep then [] :: r
    else
      match r with
      | [] => [[c]]
      | h :: t => (c :: h) :: t

/-- Helper for `rustLines`: drop one trailing carriage return. -/
def stripCr (l : Str) : Str := if l.getLast? = some '\r' then l.dropLast else l

/-- Rust `str::lines`: split on `'\n'`; every piece that was terminated by a
`'\n'` has one trailing `'\r'` stripped (a `"\r\n"` ending), while a final
piece not terminated by `'\n'` keeps a trailing bare `'\r'`; a trailing
newline produces no final empty line, and the empty string has no lines. -/
def rustLines (content : Str) : List Str :=
  if content = [] then []
  else
    let parts := splitOnChar '\n' content
    if content.getLast? = some '\n' then parts.dropLast.map stripCr
    else parts.dropLast.map stripCr ++ [parts.getLastD []]

/-- Rust `str::trim_matches(p)`: remove matching characters from both ends. -/
def trimMatches (p : Char → Bool) (l : Str) : Str :=
  ((l.dropWhile p).reverse.dropWhile p).reverse

/-- Rust `str::trim_start` (whitespace from the front). -/
def trimStart (l : Str) : Str := l.dropWhile Char.isWhitespace

/-- Accumulator loop behind `splitWhitespaceChars`. -/
def splitWsAux : Str → Str → List Str
  | [], acc => if acc = [] then [] else [acc.reverse]
  | c :: rest, acc =>
    if c.isWhitespace then
      if acc = [] then splitWsAux rest []
      else acc.reverse :: splitWsAux rest []
    else splitWsAux rest (c :: acc)

/-- Rust `str::split_whitespace`: maximal runs of non-whitespace characters. -/
def splitWhitespaceChars (l : Str) : List Str := splitWsAux l []

/-- Rust `str::to_lowercase`, restricted to the one-character-per-character
case (exact on ASCII, which is all the chunker's keyword logic compares). -/
def toLowerStr (l : Str) : Str := l.map Char.toLower

/-- Rust `str::contains(needle)`: substring search. -/
def strContains (haystack needle : Str) : Bool :=
  (List.range (haystack.length + 1)).any (fun i => needle.isPrefixOf (haystack.drop i))

/-- Decimal rendering of a natural number, for `format!` interpolation. -/
def natStr (n : Nat) : Str := (toString n).toList

/-- HashSet insertion on a duplicate-free list model of `HashSet<String>`. -/
def hashInsert (s : List Str) (x : Str) : List Str := if x ∈ s then s else s ++ [x]

/-- The fixed keyword vocabulary of `extract_keywords`
(chunker/similarity.rs:155-195, identical in chunker/utils.rs:131-171). -/
def commonKeywords : List Str :=
  (["function", "class", "struct", "enum", "trait", "interface", "public",
    "private", "protected", "static", "const", "mut", "async", "await",
    "return", "yield", "throw", "catch", "if", "else", "while", "for",
    "match", "switch", "case", "import", "export", "use", "include",
    "require", "new", "delete", "malloc", "free", "clone", "impl",
    "extends", "implements", "inherits"]).map String.toList

/-- `SimilarityCalculator::extract_keywords_static`
(chunker/similarity.rs:151-210); `ChunkerUtils::extract_keywords`
(chunker/utils.rs:127-186) is the same algorithm. -/
def extract_keywords (content : Str) : List Str :=
  (splitWhitespaceChars content).foldl
    (fun ks w =>
      let clean := toLowerStr (trimMatches (fun c => !c.isAlphanum) w)
      if byteSize clean > 2 ∧ (clean ∈ commonKeywords ∨ clean.any Char.isUpper)
      then hashInsert ks clean else ks) []

/-- `SimilarityCalculator::is_likely_identifier_static`
(chunker/similarity.rs:246-265). -/
def is_likely_identifier (w : Str) : Bool :=
  if byteSize w < 2 then false
  else
    match w with
    | [] => false
    | c :: _ =>
      (c.isAlpha || c = '_') && w.all (fun d => d.isAlphanum || d = '_') &&
        (w.contains '_' || w.any Char.isUpper || byteSize w > 3)

/-- `SimilarityCalculator::extract_symbols_static`
(chunker/similarity.rs:213-225). -/
def extract_symbols (content : Str) : List Str :=
  (splitWhitespaceChars content).foldl
    (fun ss w =>
      let clean := trimMatches (fun c => !(c.isAlphanum || c = '_')) w
      if is_likely_identifier clean then hashInsert ss clean else ss) []

/-- A nonnegative rational in unnormalized `num/den` form.  The chunker's
`f32` similarity arithmetic (ratios of small set cardinalities, fixed weights
`0.3`/`0.7`, thresholds `0.3`, `0.7`, `0.8`) is modelled exactly by fraction
arithmetic; the representation is never normalized, so every operation is
plain `Nat` arithmetic and evaluates by kernel reduction. -/
structure Frac where
  num : Nat
  den : Nat
deriving DecidableEq

/-- Strict order on fractions by cross-multiplication (denominators are
positive in every value built here). -/
def fracLt (a b : Frac) : Bool := a.num * b.den < b.num * a.den

/-- Exact fraction addition. -/
def fracAdd (a b : Frac) : Frac := { num := a.num * b.den + b.num * a.den, den := a.den * b.den }

/-- Exact fraction multiplication. -/
def fracMul (a b : Frac) : Frac := { num := a.num * b.num, den := a.den * b.den }

/-- Rust `f32::max` on the fraction model. -/
def fracMax (a b : Frac) : Frac := if fracLt a b then b else a

/-- `jaccard_similarity_static` (chunker/similarity.rs:268-281): the inputs
are duplicate-free lists standing for hash sets. -/
def jaccard_similarity (s1 s2 : List Str) : Frac :=
  if s1 = [] ∧ s2 = [] then { num := 1, den := 1 }
  else
    let inter := (s1.filter (fun x => decide (x ∈ s2))).length
    let uni := s1.length + (s2.filter (fun x => decide (x ∉ s1))).length
    if uni = 0 then { num := 0, den := 1 } else { num := inter, den := uni }

/-- The chunk record (chunker/types.rs:3-13). -/
structure Chunk where
  id : Str
  path : Str
  lang : Str
  symbol : Option Str
  rev : Str
  size : Nat
  code : Str
  summary : Option Str
deriving DecidableEq

/-- `SimilarityCalculator::calculate_chunk_similarity`
(chunker/similarity.rs:70-86): 0.3 × keyword Jaccard + 0.7 × symbol Jaccard. -/
def calculate_chunk_similarity (c1 c2 : Chunk) : Frac :=
  let k1 := extract_keywords c1.code
  let k2 := extract_keywords c2.code
  let s1 := extract_symbols c1.code
  let s2 := extract_symbols c2.code
  fracAdd (fracMul { num := 3, den := 10 } (jaccard_similarity k1 k2))
    (fracMul { num := 7, den := 10 } (jaccard_similarity s1 s2))

/-- An entry of `CodeAnalysis.symbols` (chunker/types.rs:16-24), as far as
`generate_semantic_summary` reads it. -/
structure CodeSymbolInfo where
  name : Str
  symbol_type : Str
  complexity : Nat
deriving DecidableEq

/-- The complexity band of `generate_semantic_summary`
(chunker/similarity.rs:121-126); `0` falls to the wildcard arm. -/
def complexityDesc (x : Nat) : Str :=
  if 1 ≤ x ∧ x ≤ 2 then ("simple").toList
  else if 3 ≤ x ∧ x ≤ 5 then ("moderate").toList
  else if 6 ≤ x ∧ x ≤ 10 then ("complex").toList
  else ("highly complex").toList

/-- The content-based fallback summary of `generate_semantic_summary`
(chunker/similarity.rs:137-147). -/
def fallbackSummary (c : Chunk) : Option Str :=
  let lines := (rustLines c.code).length
  if lines > 50 then
    some (("Large code block (").toList ++ natStr lines ++ (" lines)").toList)
  else if strContains c.code (("fn ").toList) || strContains c.code (("function ").toList) then
    some (("Function implementation").toList)
  else if strContains c.code (("struct ").toList) || strContains c.code (("class ").toList) then
    some (("Type definition").toList)
  else some (("Code block").toList)

/-- `SimilarityCalculator::generate_semantic_summary`
(chunker/similarity.rs:115-148); `symbols` is `analysis.symbols`, which every
call site inside `chunk_file` passes as `CodeAnalysis::default()` (empty). -/
def generate_semantic_summary (symbols : List CodeSymbolInfo) (c : Chunk) : Option Str :=
  match c.symbol with
  | some sym =>
    match symbols.find? (fun s => decide (s.name = sym)) with
    | some info =>
      some (complexityDesc info.complexity ++ (" ").toList ++
        (info.symbol_type.map (fun d => if d = '_' then ' ' else d)) ++
        (" (").toList ++ sym ++ (")").toList)
    | none => fallbackSummary c
  | none => fallbackSummary c

/-- The merge of two undersized neighbours (chunker/similarity.rs:40-47):
codes joined with a newline, size recomputed, ids joined with `+`, symbol
inherited from the right neighbour when absent on the left. -/
def mergeChunks (cur next : Chunk) : Chunk :=
  let code := cur.code ++ '\n' :: next.code
  { cur with
    code := code
    size := byteSize code
    id := cur.id ++ '+' :: next.id
    symbol := if cur.symbol = none ∧ next.symbol ≠ none then next.symbol else cur.symbol }

/-- The per-iteration summary step of `optimize_chunks`
(chunker/similarity.rs:57-60): chunks larger than 1000 bytes without a
summary receive one. -/
def withComplexitySummary (c : Chunk) : Chunk :=
  if c.size > 1000 ∧ c.summary = none then
    { c with summary := generate_semantic_summary [] c }
  else c

/-- The merge decision of `optimize_chunks` (chunker/similarity.rs:26-39):
similarity is computed only for equal languages, and merging requires
`(similarity > 0.3 ∨ combined < 3000) ∧ combined < 5000`. -/
def shouldMerge (cur next : Chunk) : Bool :=
  let similarity : Frac :=
    if cur.lang = next.lang then calculate_chunk_similarity cur next
    else { num := 0, den := 1 }
  (fracLt { num := 3, den := 10 } similarity ∨ cur.size + next.size < 3000) ∧
    cur.size + next.size < 5000

/-- `SimilarityCalculator::optimize_chunks` (chunker/similarity.rs:14-66).
A chunk below 100 bytes with a successor is merged with it when `shouldMerge`
holds (the successor is then skipped); every emitted chunk passes the
large-chunk summary step. The `Result` wrapper of the source is always `Ok`. -/
def optimize_chunks : List Chunk → List Chunk
  | [] => []
  | [cur] => [withComplexitySummary cur]
  | cur :: next :: rest =>
    if cur.size < 100 then
      if shouldMerge cur next then
        withComplexitySummary (mergeChunks cur next) :: optimize_chunks rest
      else
        withComplexitySummary cur :: optimize_chunks (next :: rest)
    else
      withComplexitySummary cur :: optimize_chunks (next :: rest)

/-- A fallback window may snap back at an empty line or a `//` / `#` comment
line (chunker/strategies.rs:265-269). -/
def isSnapLine (l : Str) : Bool :=
  trimMatches Char.isWhitespace l = [] ||
    (("//").toList).isPrefixOf (trimStart l) ||
    (match trimStart l with
     | '#' :: _ => true
     | _ => false)

/-- The backward scan `for i in (start+30..end).rev()`
(chunker/strategies.rs:264-273): the largest snap index in `[lo, hi)`. -/
def findSnapIdx (lines : List Str) (lo hi : Nat) : Option Nat :=
  ((List.range' lo (hi - lo)).reverse).find? (fun i => isSnapLine (lines.getD i []))

/-- The window end of one fallback iteration (chunker/strategies.rs:261-274):
50 lines, snapped backward when the window does not reach the end of file. -/
def fallbackEnd (lines : List Str) (startLine : Nat) : Nat :=
  let e0 := min (startLine + 50) lines.length
  if e0 < lines.length then
    match findSnapIdx lines (startLine + 30) e0 with
    | some i => i + 1
    | none => e0
  else e0

/-- The id written by the fallback path: `format!("{path}:{start}:{end}")`
(chunker/strategies.rs:280). -/
def fallbackId (path : Str) (s e : Nat) : Str :=
  path ++ ':' :: natStr s ++ ':' :: natStr e

/-- The `while start_line < lines.len()` loop of `fallback_chunking`
(chunker/strategies.rs:260-291), structured on a fuel counter so that it
evaluates by kernel reduction; `fallbackGoF_fuel_irrelevant` below shows any
fuel of at least `lines.length - startLine` gives the same result, so the
`lines.length` supplied by `fallback_chunking` is always sufficient. -/
def fallbackGoF (path lang rev : Str) (lines : List Str) : Nat → Nat → List Chunk
  | 0, _ => []
  | fuel + 1, startLine =>
    if startLine < lines.length then
      let endLine := fallbackEnd lines startLine
      let code := List.intercalate ['\n'] ((lines.drop startLine).take (endLine - startLine))
      { id := fallbackId path startLine endLine
        path := path
        lang := lang
        symbol := none
        rev := rev
        size := byteSize code
        code := code
        summary := none } :: fallbackGoF path lang rev lines fuel endLine
    else []

/-- `ChunkingStrategies::fallback_chunking` (chunker/strategies.rs:249-294). -/
def fallback_chunking (path content lang rev : Str) : List Chunk :=
  fallbackGoF path lang rev (rustLines content) (rustLines content).length 0

/-- Exact fraction division (used for the `f32` divisions in complexity
scores). -/
def fracDiv (a b : Frac) : Frac := { num := a.num * b.den, den := a.den * b.num }

/-- Insertion into a sorted list, placing the new element after every element
it is not strictly below — the stable position. -/
def insertSorted {α : Type} (lt : α → α → Bool) (x : α) : List α → List α
  | [] => [x]
  | y :: ys => if lt x y then x :: y :: ys else y :: insertSorted lt x ys

/-- Stable sort by a strict comparison (insertion sort).  Rust's
`sort` / `sort_by_key` are stable and `sort_unstable` is only applied to
`usize` keys here, where stability is unobservable, so this models both. -/
def stableSort {α : Type} (lt : α → α → Bool) (l : List α) : List α :=
  l.foldl (fun acc x => insertSorted lt x acc) []

/-- Strict byte-lexicographic order on strings (Rust `String`'s `Ord`; UTF-8
byte order coincides with codepoint order). -/
def strLt : Str → Str → Bool
  | [], [] => false
  | [], _ :: _ => true
  | _ :: _, [] => false
  | a :: as, b :: bs =>
    if a.toNat < b.toNat then true
    else if a.toNat = b.toNat then strLt as bs
    else false

/-- Rust `Vec::dedup`: remove consecutive duplicates, keeping the first. -/
def dedupAdj {α : Type} [DecidableEq α] : List α → List α
  | [] => []
  | [a] => [a]
  | a :: b :: rest =>
    if a = b then dedupAdj (b :: rest) else a :: dedupAdj (b :: rest)

/-- `sort_unstable` + `dedup` on a list of byte offsets. -/
def sortDedupNat (l : List Nat) : List Nat :=
  dedupAdj (stableSort (fun a b => decide (a < b)) l)

/-- `str::parse::<usize>().unwrap_or(0)`: an optional `+` sign followed by at
least one digit parses; everything else defaults to 0. -/
def parseNatD (s : Str) : Nat :=
  let t := match s with
    | '+' :: rest => rest
    | _ => s
  if t ≠ [] ∧ t.all Char.isDigit then
    t.foldl (fun acc c => acc * 10 + (c.toNat - 48)) 0
  else 0

/-- A tree-sitter syntax tree node: its grammar `kind`, its byte range in the
parsed content, and its children in order.  The parse itself is performed by
the external tree-sitter library; the chunker's own traversals
(chunker/analysis.rs, chunker/strategies.rs, chunker/utils.rs,
chunker/similarity.rs) are embedded over this model, taking the parsed tree
as an input. -/
inductive TreeNode where
  | node (kind : Str) (startByte : Nat) (endByte : Nat) (children : List TreeNode)

/-- The grammar kind of a node. -/
def TreeNode.kind : TreeNode → Str
  | TreeNode.node k _ _ _ => k

/-- `node.start_byte()`. -/
def TreeNode.startByte : TreeNode → Nat
  | TreeNode.node _ s _ _ => s

/-- `node.end_byte()`. -/
def TreeNode.endByte : TreeNode → Nat
  | TreeNode.node _ _ e _ => e

/-- The node's children in order. -/
def TreeNode.children : TreeNode → List TreeNode
  | TreeNode.node _ _ _ cs => cs

mutual
/-- The nodes of a tree in preorder: every recursive cursor walk of the Rust
code (visit a node, then its children left to right) visits nodes and pushes
results in exactly this order. -/
def preorder : TreeNode → List TreeNode
  | TreeNode.node k s e cs => TreeNode.node k s e cs :: preorderList cs

/-- Preorder across a sibling list. -/
def preorderList : List TreeNode → List TreeNode
  | [] => []
  | t :: ts => preorder t ++ preorderList ts
end

/-- Drop chars up to a byte offset: the first half of byte-range slicing.  On
char-boundary offsets this is exact; Rust panics on non-boundary offsets,
which tree-sitter never produces, so off-boundary behavior (skipping the
partial char) is an arbitrary total extension. -/
def byteDrop : Str → Nat → Str
  | l, 0 => l
  | [], _ => []
  | c :: rest, n + 1 => byteDrop rest (n + 1 - c.utf8Size)

/-- Take chars up to a byte length: the second half of byte-range slicing. -/
def byteTake : Str → Nat → Str
  | _, 0 => []
  | [], _ => []
  | c :: rest, n + 1 =>
    if c.utf8Size ≤ n + 1 then c :: byteTake rest (n + 1 - c.utf8Size) else []

/-- Rust `&content[s..e]` by byte offsets, for the in-bounds char-boundary
ranges on which the source relies (tree-sitter offsets). -/
def byteSlice (l : Str) (s e : Nat) : Str := byteTake (byteDrop l s) (e - s)

/-- `n` is a UTF-8 char-boundary byte offset of `content` (in particular
`n ≤ content.len()`).  Rust's `&content[s..e]` panics off boundaries, so
every offset the source actually slices at satisfies this. -/
def IsBoundary (content : Str) (n : Nat) : Prop :=
  ∃ k, k ≤ content.length ∧ byteSize (content.take k) = n

/-- Well-formedness of a parse tree for its content: every node's byte range
lies on char boundaries of the content.  tree-sitter guarantees this for the
tree it returns for `content`; the Rust code relies on it (it indexes
`content[node.byte_range()]` without checks). -/
def ValidTree (content : Str) (t : TreeNode) : Prop :=
  ∀ n ∈ preorder t, IsBoundary content n.startByte ∧ IsBoundary content n.endByte

/-- `ValidTree` lifted to the optional parse result; no tree, no
obligation. -/
def ValidTreeOpt (content : Str) : Option TreeNode → Prop
  | none => True
  | some t => ValidTree content t

/-- The node kinds classified as symbols, identical in
`ChunkingStrategies::is_symbol_node` (chunker/strategies.rs:358-375) and
`CodeAnalyzer::is_symbol_node` (chunker/analysis.rs:113-130). -/
def is_symbol_node (kind : Str) : Bool :=
  (["function_item", "function_definition", "method_definition", "struct_item",
    "class_definition", "enum_item", "trait_item", "impl_item", "type_item",
    "const_item", "static_item", "module", "interface_declaration"].map
    String.toList).contains kind

/-- `CodeSymbol::calculate_importance` (chunker/types.rs:48-58), `f32`
constants as exact tenths. -/
def calculate_importance (kind : Str) : Frac :=
  if (["function_item", "function_definition", "method_definition"].map
      String.toList).contains kind then { num := 10, den := 10 }
  else if (["struct_item", "class_definition"].map String.toList).contains kind then
    { num := 12, den := 10 }
  else if (["enum_item", "trait_item", "interface_declaration"].map
      String.toList).contains kind then { num := 11, den := 10 }
  else if kind = ("impl_item").toList then { num := 9, den := 10 }
  else if (["const_item", "static_item"].map String.toList).contains kind then
    { num := 7, den := 10 }
  else if kind = ("module").toList then { num := 13, den := 10 }
  else { num := 5, den := 10 }

/-- `CodeSymbol::calculate_complexity` (chunker/types.rs:60-84): one plus a
fifth of the child count, plus control-flow weights over the direct
children. -/
def calculate_complexity (t : TreeNode) : Nat :=
  1 + t.children.length / 5 +
    (t.children.map (fun c =>
      if (["if_statement", "if_expression"].map String.toList).contains c.kind then 1
      else if (["while_statement", "for_statement"].map String.toList).contains c.kind
        then 2
      else if (["match_expression", "switch_statement"].map String.toList).contains
        c.kind then 3
      else 0)).sum

/-- `CodeAnalyzer::extract_symbol_name` (chunker/analysis.rs:214-319): for
the eight handled languages, the first direct child of kind `identifier`
names the symbol (sliced from the given content); other languages yield no
name. -/
def extract_symbol_name (t : TreeNode) (content : Str) (lang : Str) : Option Str :=
  if (["rust", "python", "javascript", "typescript", "go", "java", "cpp", "c"].map
      String.toList).contains lang then
    (t.children.find? (fun c => decide (c.kind = ("identifier").toList))).map
      (fun c => byteSlice content c.startByte c.endByte)
  else none

/-- An entry of `analysis.symbols` (chunker/types.rs:16-24), `f32`
importance as an exact fraction.  The `references` vector is built with
`Vec::new()` and never filled by the analyzer. -/
structure CodeSymbolM where
  name : Str
  symbol_type : Str
  start_byte : Nat
  end_byte : Nat
  importance_score : Frac
  complexity : Nat
  references : List Nat
deriving DecidableEq

/-- `CodeAnalyzer::extract_symbols_recursive` (chunker/analysis.rs:78-111):
a preorder walk pushing one `CodeSymbol` per symbol node with an extractable
name. -/
def analysisSymbols (content lang : Str) (t : TreeNode) : List CodeSymbolM :=
  (preorder t).filterMap (fun n =>
    if is_symbol_node n.kind then
      (extract_symbol_name n content lang).map (fun nm =>
        { name := nm
          symbol_type := n.kind
          start_byte := n.startByte
          end_byte := n.endByte
          importance_score := calculate_importance n.kind
          complexity := calculate_complexity n
          references := [] })
    else none)

/-- `CodeAnalysis::calculate_overall_complexity` (chunker/types.rs:88-105):
the mean of the average complexity and the importance-weighted complexity
sum; zero for no symbols. -/
def calculate_overall_complexity (symbols : List CodeSymbolM) : Frac :=
  if symbols.isEmpty then { num := 0, den := 1 }
  else
    let total : Nat := (symbols.map (fun s => s.complexity)).sum
    let avg : Frac := { num := total, den := symbols.length }
    let weighted : Frac := (symbols.map (fun s =>
      fracMul { num := s.complexity, den := 1 } s.importance_score)).foldl fracAdd
      { num := 0, den := 1 }
    fracDiv (fracAdd avg weighted) { num := 2, den := 1 }

/-- The boundary-emitting walk shared by
`CodeAnalyzer::find_boundaries_recursive` (chunker/analysis.rs:132-175) and
`ChunkerUtils::find_boundaries` (chunker/utils.rs:76-124): definitions and
modules contribute both byte ends, imports and over-50-byte comments their
end byte. -/
def findBoundaryOffsets (t : TreeNode) : List Nat :=
  ((preorder t).map (fun n =>
    if (["function_item", "function_definition", "method_definition", "struct_item",
        "class_definition", "impl_item", "enum_item", "trait_item",
        "interface_declaration", "module", "mod_item", "namespace_definition"].map
        String.toList).contains n.kind then [n.startByte, n.endByte]
    else if (["use_declaration", "import_statement", "import_from_statement"].map
        String.toList).contains n.kind then [n.endByte]
    else if ((["line_comment", "block_comment"].map String.toList).contains n.kind ∧
        n.endByte - n.startByte > 50) then [n.endByte]
    else [])).flatten

/-- The per-language import node kinds of `CodeAnalyzer::extract_imports`
(chunker/analysis.rs:185-194). -/
def isImportNode (lang kind : Str) : Bool :=
  if lang = ("rust").toList then decide (kind = ("use_declaration").toList)
  else if lang = ("python").toList then
    (["import_statement", "import_from_statement"].map String.toList).contains kind
  else if (["javascript", "typescript"].map String.toList).contains lang then
    (["import_statement", "import_declaration"].map String.toList).contains kind
  else if lang = ("go").toList then decide (kind = ("import_declaration").toList)
  else if lang = ("java").toList then decide (kind = ("import_declaration").toList)
  else false

/-- `CodeAnalysis` (chunker/types.rs:27-33), `f32` score as an exact
fraction. -/
structure CodeAnalysisM where
  symbols : List CodeSymbolM
  complexity_score : Frac
  semantic_boundaries : List Nat
  imports : List Str
  dependencies : List Str

/-- `CodeAnalyzer::analyze_code_structure` (chunker/analysis.rs:11-53):
symbols, overall complexity, boundaries (the `enhanced` and plain detectors
run the same walk, so the union is taken literally), imports, and
dependencies (imports plus import/use-typed symbol names, sorted and
deduplicated). -/
def analyze_code_structure (content lang : Str) (t : TreeNode) : CodeAnalysisM :=
  let symbols := analysisSymbols content lang t
  let boundaries := sortDedupNat
    (sortDedupNat (findBoundaryOffsets t) ++ sortDedupNat (findBoundaryOffsets t))
  let imports := (preorder t).filterMap (fun n =>
    if isImportNode lang n.kind then some (byteSlice content n.startByte n.endByte)
    else none)
  let deps := imports ++ symbols.filterMap (fun s =>
    if s.symbol_type = ("import").toList ∨ s.symbol_type = ("use").toList then
      some s.name
    else none)
  { symbols := symbols
    complexity_score := calculate_overall_complexity symbols
    semantic_boundaries := boundaries
    imports := imports
    dependencies := dedupAdj (stableSort strLt deps) }

/-- `ChunkerUtils::collect_symbols` (chunker/utils.rs:204-224): the set of
identifier-node slices longer than one byte.  The Rust `HashSet` iterates in
an unspecified order; every consumer sorts or compares by membership. -/
def treeIdentifierSet (content : Str) (t : TreeNode) : List Str :=
  (preorder t).foldl (fun acc n =>
    if n.kind = ("identifier").toList ∧
        byteSize (byteSlice content n.startByte n.endByte) > 1 then
      hashInsert acc (byteSlice content n.startByte n.endByte)
    else acc) []

/-- The analysis enhancement inside `chunk_file` (chunker.rs:76-102): extend
the boundaries with `detect_semantic_boundaries` (the same walk, sorted and
deduplicated — chunker/utils.rs:65-73), then extend the dependencies with the
lexical keywords, the lexical symbols, and the tree identifiers, sorted and
deduplicated. -/
def enhancedAnalysis (content lang : Str) (t : TreeNode) : CodeAnalysisM :=
  let a := analyze_code_structure content lang t
  let boundaries := sortDedupNat
    (a.semantic_boundaries ++ sortDedupNat (findBoundaryOffsets t))
  let keywords := extract_keywords content
  let symbols := dedupAdj (stableSort strLt
    (extract_symbols content ++ treeIdentifierSet content t))
  { a with
    semantic_boundaries := boundaries
    dependencies := dedupAdj (stableSort strLt (a.dependencies ++ keywords ++ symbols)) }

/-- Rust `slice::chunks(n)` on a fuel counter (`chunksOfF_fuel_irrelevant`
below shows any fuel of at least the list length gives the same result when
`0 < n`; `chunks(0)` panics in Rust and is outside every theorem here).  Used
both for the pipeline's batch decomposition and for `subdivide_large_chunk`'s
50-line windows. -/
def chunksOfF {α : Type} : Nat → Nat → List α → List (List α)
  | 0, _, _ => []
  | _, _, [] => []
  | fuel + 1, n, l => l.take n :: chunksOfF fuel n (l.drop n)

/-- The batch decomposition `chunks.chunks(self.config.batch_size)`
(pipeline.rs:627-635) and the line windows of strategies.rs:339. -/
def chunksOf {α : Type} (n : Nat) (l : List α) : List (List α) := chunksOfF l.length n l

/-- `ChunkingStrategies::chunk_by_definitions` (chunker/strategies.rs:296-332):
one chunk per symbol node in preorder, id `path:start:end`, code the node's
byte slice, size the slice's byte length (`chunk_content.len()`). -/
def chunk_by_definitions (path content lang rev : Str) (t : TreeNode) : List Chunk :=
  (preorder t).filterMap (fun n =>
    if is_symbol_node n.kind then
      some { id := path ++ ':' :: natStr n.startByte ++ ':' :: natStr n.endByte
             path := path
             lang := lang
             symbol := extract_symbol_name n content lang
             rev := rev
             size := byteSize (byteSlice content n.startByte n.endByte)
             code := byteSlice content n.startByte n.endByte
             summary := none }
    else none)

/-- `ChunkingStrategies::subdivide_large_chunk` (chunker/strategies.rs:334-356):
50-line sub-chunks, ids `parent.i`, size recomputed from the sub-content. -/
def subdivide_large_chunk (c : Chunk) : List Chunk :=
  (chunksOf 50 (rustLines c.code)).mapIdx (fun i ls =>
    let sub := List.intercalate ['\n'] ls
    { id := c.id ++ '.' :: natStr i
      path := c.path
      lang := c.lang
      symbol := c.symbol
      rev := c.rev
      size := byteSize sub
      code := sub
      summary := none })

/-- `ChunkingStrategies::extract_semantic_chunks` (chunker/strategies.rs:12-37):
definition chunks, with any chunk above 2000 bytes subdivided (the `analysis`
argument of the source is passed through to `subdivide_large_chunk`, which
ignores it). -/
def extract_semantic_chunks (path content lang rev : Str) (t : TreeNode) : List Chunk :=
  ((chunk_by_definitions path content lang rev t).map (fun c =>
    if c.size > 2000 then subdivide_large_chunk c else [c])).flatten

/-- `CodeAnalyzer::extract_primary_symbol` / `find_primary_symbol`
(chunker/analysis.rs:321-349): the first symbol node in preorder with an
extractable name, the name sliced from the given content (the call sites pass
a chunk's code with the file-level tree). -/
def extract_primary_symbol (content lang : Str) (t : TreeNode) : Option Str :=
  (preorder t).findSome? (fun n =>
    if is_symbol_node n.kind then extract_symbol_name n content lang else none)

/-- Strategy 1 of `extract_context_chunks` (chunker/strategies.rs:55-106):
one chunk per high-importance symbol (importance above 0.7 or more than two
references) whose clamped range is at least 50 bytes, with the enriched
summary. -/
def contextSymbolChunks (path content lang rev : Str) (a : CodeAnalysisM) : List Chunk :=
  (a.symbols.filter (fun s =>
    fracLt { num := 7, den := 10 } s.importance_score ∨ s.references.length > 2)).filterMap
    (fun s =>
      let start := s.start_byte
      let e := min s.end_byte (byteSize content)
      if start < e ∧ 50 ≤ e - start then
        let cc := byteSlice content start e
        let parts0 := [s.symbol_type ++ (": ").toList ++ s.name]
        let parts1 := if s.complexity > 5 then
          parts0 ++ [("High complexity: ").toList ++ natStr s.complexity] else parts0
        let parts2 := if ¬ s.references.isEmpty then
          parts1 ++ [("Referenced ").toList ++ natStr s.references.length ++
            (" times").toList] else parts1
        let chunkImports := a.imports.filter (fun im => strContains cc im)
        let parts3 := if ¬ chunkImports.isEmpty then
          parts2 ++ [("Imports: ").toList ++
            List.intercalate ((", ").toList) chunkImports] else parts2
        some { id := path ++ (":symbol:").toList ++ natStr start ++ ':' :: natStr e
               path := path
               lang := lang
               symbol := some s.name
               rev := rev
               size := e - start
               code := cc
               summary := some (List.intercalate ((" | ").toList) parts3) }
      else none)

/-- The covered ranges of `extract_context_chunks`
(chunker/strategies.rs:108-123): `(start, end)` parsed back out of
`path:symbol:start:end` ids, `(0, 0)` otherwise, sorted by start. -/
def coveredRanges (chunks : List Chunk) : List (Nat × Nat) :=
  stableSort (fun a b => decide (a.1 < b.1))
    (chunks.map (fun c =>
      let parts := splitOnChar ':' c.id
      if parts.length ≥ 4 ∧ parts.getD 1 [] = ("symbol").toList then
        (parseNatD (parts.getD 2 []), parseNatD (parts.getD 3 []))
      else (0, 0)))

/-- Strategy 2 of `extract_context_chunks` (chunker/strategies.rs:125-189):
the boundary-cutting fold, returning the emitted chunks and the final cut
position (`start` advances only when a chunk is emitted). -/
def contextBoundaryChunks (path content lang rev : Str) (a : CodeAnalysisM)
    (t : TreeNode) (covered : List (Nat × Nat)) : List Chunk × Nat :=
  a.semantic_boundaries.foldl (fun st boundary =>
    let start := st.2
    let isCovered := covered.any (fun r => decide (r.1 ≤ start) && decide (boundary ≤ r.2))
    if ¬ isCovered ∧ boundary > start + 100 then
      let cc := byteSlice content start boundary
      let parts0 : List Str :=
        if fracLt { num := 5, den := 10 } a.complexity_score then
          [("Complex code section").toList] else []
      let chunkDeps := a.dependencies.filter (fun d => strContains cc d)
      let parts1 := if ¬ chunkDeps.isEmpty then
        parts0 ++ [("Dependencies: ").toList ++
          List.intercalate ((", ").toList) chunkDeps] else parts0
      let related := (a.symbols.filter (fun s =>
        decide (start ≤ s.start_byte) && decide (s.end_byte ≤ boundary))).map
        (fun s => s.name)
      let parts2 := if ¬ related.isEmpty then
        parts1 ++ [("Contains: ").toList ++
          List.intercalate ((", ").toList) related] else parts1
      (st.1 ++ [{ id := path ++ (":semantic:").toList ++ natStr start ++ ':' ::
                    natStr boundary
                  path := path
                  lang := lang
                  symbol := extract_primary_symbol cc lang t
                  rev := rev
                  size := boundary - start
                  code := cc
                  summary := if parts2.isEmpty then none
                    else some (List.intercalate ((" | ").toList) parts2) }], boundary)
    else st) ([], 0)

/-- The trailing-content chunk of `extract_context_chunks`
(chunker/strategies.rs:191-227). -/
def contextFinalChunk (path content lang rev : Str) (a : CodeAnalysisM)
    (t : TreeNode) (covered : List (Nat × Nat)) (start : Nat) : List Chunk :=
  if start < byteSize content then
    let isCovered := covered.any (fun r =>
      decide (r.1 ≤ start) && decide (byteSize content ≤ r.2))
    if ¬ isCovered then
      let cc := byteSlice content start (byteSize content)
      let parts0 := [("Final section").toList]
      let remaining := (a.symbols.filter (fun s => decide (start ≤ s.start_byte))).map
        (fun s => s.name)
      let parts1 := if ¬ remaining.isEmpty then
        parts0 ++ [("Contains: ").toList ++
          List.intercalate ((", ").toList) remaining] else parts0
      [{ id := path ++ (":final:").toList ++ natStr start ++ ':' ::
            natStr (byteSize content)
         path := path
         lang := lang
         symbol := extract_primary_symbol cc lang t
         rev := rev
         size := byteSize content - start
         code := cc
         summary := some (List.intercalate ((" | ").toList) parts1) }]
    else []
  else []

/-- The sort key of the final ordering pass (chunker/strategies.rs:236-243):
the second-to-last `:`-separated component of the id, parsed as `usize`. -/
def chunkStartKey (c : Chunk) : Nat :=
  let parts := splitOnChar ':' c.id
  if parts.length ≥ 3 then parseNatD (parts.getD (parts.length - 2) []) else 0

/-- `ChunkingStrategies::extract_context_chunks`
(chunker/strategies.rs:40-246): symbol chunks, boundary chunks and the final
chunk (the latter two only when boundaries exist), with fallback delegation
when the analysis is empty or nothing was produced, and a stable sort by
parsed start position. -/
def extract_context_chunks (path content lang rev : Str) (a : CodeAnalysisM)
    (t : TreeNode) : List Chunk :=
  if a.symbols.isEmpty ∧ a.semantic_boundaries.isEmpty then
    fallback_chunking path content lang rev
  else
    let symChunks := contextSymbolChunks path content lang rev a
    let covered := coveredRanges symChunks
    let chunks :=
      if ¬ a.semantic_boundaries.isEmpty then
        let bl := contextBoundaryChunks path content lang rev a t covered
        symChunks ++ bl.1 ++ contextFinalChunk path content lang rev a t covered bl.2
      else symChunks
    if chunks.isEmpty then fallback_chunking path content lang rev
    else stableSort (fun c1 c2 => decide (chunkStartKey c1 < chunkStartKey c2)) chunks

/-- The dispatch of `Chunker::chunk_file` (chunker.rs:74-128): with a parse
tree, semantic chunks when any exist, else context chunks over the enhanced
analysis; without a tree (no parser for the language, or a failed parse —
chunker.rs:55-72), fallback chunking.  The tree is the external tree-sitter
parse result, supplied as an input. -/
def dispatchChunks (tree? : Option TreeNode) (path content lang rev : Str) : List Chunk :=
  match tree? with
  | some t =>
    let semantic := extract_semantic_chunks path content lang rev t
    if ¬ semantic.isEmpty then semantic
    else extract_context_chunks path content lang rev (enhancedAnalysis content lang t) t
  | none => fallback_chunking path content lang rev

/-- Languages with a registered tree-sitter parser
(`ParserManager::new`, chunker/parser.rs:18-87). -/
def hasParser (lang : Str) : Bool :=
  (["rust", "python", "javascript", "typescript", "go", "java", "cpp", "c"].map
    String.toList).contains lang

/-- The keyword node kinds of `collect_keywords_recursive`
(chunker/similarity.rs:291-296): the tree-based keyword list adds `fn`/`def`
to, and drops `malloc`/`free`/`clone`/`inherits` from, the lexical
vocabulary. -/
def treeKeywordKinds : List Str :=
  (["function", "fn", "def", "class", "struct", "enum", "trait", "interface",
    "public", "private", "protected", "static", "const", "mut", "async",
    "await", "return", "yield", "throw", "catch", "if", "else", "while",
    "for", "match", "switch", "case", "import", "export", "use", "include",
    "require", "new", "delete", "impl", "extends", "implements"]).map
    String.toList

/-- `SimilarityCalculator::extract_keywords_from_tree`
(chunker/similarity.rs:228-234, 283-312): the set of keyword kinds present
among the tree's nodes (the content argument is unused). -/
def treeKeywords (t : TreeNode) : List Str :=
  (preorder t).foldl (fun acc n =>
    if treeKeywordKinds.contains n.kind then hashInsert acc n.kind else acc) []

/-- `SimilarityCalculator::calculate_semantic_similarity_with_tree`
(chunker/similarity.rs:90-112): with two trees, 0.3 × Jaccard of tree keyword
sets + 0.7 × Jaccard of tree identifier sets (each chunk's code sliced at the
file tree's identifier ranges — `collect_symbols_recursive` is the same walk
as `ChunkerUtils::collect_symbols`); without, the static
`calculate_chunk_similarity`. -/
def calcSimilarityWithTree (c1 c2 : Chunk) (t1 t2 : Option TreeNode) : Frac :=
  match t1, t2 with
  | some u1, some u2 =>
    fracAdd
      (fracMul { num := 3, den := 10 }
        (jaccard_similarity (treeKeywords u1) (treeKeywords u2)))
      (fracMul { num := 7, den := 10 }
        (jaccard_similarity (treeIdentifierSet c1.code u1) (treeIdentifierSet c2.code u2)))
  | _, _ => calculate_chunk_similarity c1 c2

/-- The per-node weight of `ChunkerUtils::traverse_for_complexity`
(chunker/utils.rs:28-50), in half units so that the `f32` weights `1.5` and
`2.5` stay exact. -/
def complexityWeightH (kind : Str) : Nat :=
  if (["if_statement", "if_expression"].map String.toList).contains kind then 2
  else if (["while_statement", "while_expression"].map String.toList).contains kind
    then 4
  else if (["for_statement", "for_expression"].map String.toList).contains kind then 4
  else if (["match_expression", "switch_statement"].map String.toList).contains kind
    then 6
  else if (["try_statement", "try_expression"].map String.toList).contains kind then 4
  else if (["function_item", "function_definition", "method_definition"].map
    String.toList).contains kind then 6
  else if (["closure_expression", "lambda"].map String.toList).contains kind then 4
  else if (["struct_item", "class_definition", "impl_item"].map
    String.toList).contains kind then 8
  else if (["generic_type", "type_arguments"].map String.toList).contains kind then 3
  else if (["async_block", "await_expression"].map String.toList).contains kind then 5
  else 0

/-- `ChunkerUtils::calculate_semantic_complexity` (chunker/utils.rs:11-21):
the weight sum over the whole file tree, divided by the chunk code's line
count (zero for zero lines). -/
def calculate_semantic_complexity (chunkCode : Str) (t : TreeNode) : Frac :=
  let total : Nat := ((preorder t).map (fun n => complexityWeightH n.kind)).sum
  let lines := (rustLines chunkCode).length
  if lines > 0 then { num := total, den := 2 * lines } else { num := 0, den := 1 }

/-- Textual rendering of a similarity or complexity score inside a summary
remark.  The Rust source prints the `f32` with `format!("{:.2}")`; the remark
is advisory text that no claim inspects, so the exact fraction is rendered as
`num/den` instead of a two-decimal float. -/
def fmt2 (q : Frac) : Str := natStr q.num ++ '/' :: natStr q.den

/-- The complexity remark of the refinement pass (chunker.rs:167-173):
appended to an existing summary only when a tree exists.
`calculate_chunk_complexity` passes the chunk's code both as slice and as
content (chunker.rs:241-243). -/
def complexityNote (tree? : Option TreeNode) (c : Chunk) : Chunk :=
  match tree? with
  | some t =>
    match c.summary with
    | some s =>
      { c with summary := some (s ++ (" | Complexity: ").toList ++
          fmt2 (calculate_semantic_complexity c.code t)) }
    | none => c
  | none => c

/-- The overlap pass of `chunk_file` (chunker.rs:140-150): with the default
`overlap_size = 200` and more than one chunk, every existing summary gets the
suffix `" | Overlap: 200"`; content is never modified. -/
def addOverlapNote (chunks : List Chunk) : List Chunk :=
  if chunks.length > 1 then
    chunks.map (fun c =>
      match c.summary with
      | some s => { c with summary := some (s ++ (" | Overlap: 200").toList) }
      | none => c)
  else chunks

/-- The summary pass of `chunk_file` (chunker.rs:152-160): chunks without a
summary receive `generate_semantic_summary` over `CodeAnalysis::default()`. -/
def fillSummaries (chunks : List Chunk) : List Chunk :=
  chunks.map (fun c =>
    if c.summary = none then { c with summary := generate_semantic_summary [] c } else c)

/-- The remark appended by the pairwise refinement pass
(chunker.rs:196-201). -/
def simNote (j : Nat) (t b jc : Frac) : Str :=
  (" | Similar to chunk ").toList ++ natStr j ++ (" (tree: ").toList ++ fmt2 t ++
    (", basic: ").toList ++ fmt2 b ++ (", jac: ").toList ++ fmt2 jc ++ (")").toList

/-- One inner iteration of the pairwise refinement pass (chunker.rs:175-202):
`tree_similarity` comes from `calculate_semantic_similarity_with_tree` with
the file tree passed for both chunks (falling back to
`calculate_chunk_similarity` without a tree); `basic_similarity` is always
`calculate_chunk_similarity`; `jaccard_sim` uses
`ChunkerUtils::extract_keywords`, the same algorithm as `extract_keywords`.
Only the summary of the left chunk is ever changed. -/
def pairwiseStep (tree? : Option TreeNode) (c : Chunk) (jcj : Nat × Chunk) : Chunk :=
  let tree_sim := calcSimilarityWithTree c jcj.2 tree? tree?
  let basic := calculate_chunk_similarity c jcj.2
  let jac := jaccard_similarity (extract_keywords c.code) (extract_keywords jcj.2.code)
  if fracLt { num := 4, den := 5 } (fracMax tree_sim basic) ∨
      fracLt { num := 7, den := 10 } jac then
    match c.summary with
    | some s => { c with summary := some (s ++ simNote jcj.1 tree_sim basic jac) }
    | none => c
  else c

/-- The pairwise refinement pass of `chunk_file` (chunker.rs:162-204): each
chunk `i` first receives the complexity remark (only when a tree exists),
then folds the similarity check over the chunks after it.  The decisions read
only `code` and `lang` of the other chunks, which the pass never modifies, so
the sequential in-place mutation of the source is equivalent to this
per-index map. -/
def pairwiseNotes (tree? : Option TreeNode) (chunks : List Chunk) : List Chunk :=
  if chunks.length > 1 then
    chunks.mapIdx (fun i ci =>
      (List.enumFrom (i + 1) (chunks.drop (i + 1))).foldl (pairwiseStep tree?)
        (complexityNote tree? ci))
  else chunks

/-- Whether a chunk survives the size filter of `chunk_file`
(chunker.rs:136-137), with the `Chunker::new` configuration
`min_chunk_size = 100`, `max_chunk_size = 2000`. -/
def sizeWithinConfig (c : Chunk) : Bool := 100 ≤ c.size ∧ c.size ≤ 2000

/-- `Chunker::chunk_file` (chunker.rs:47-207), parameterized by the external
tree-sitter parse result `tree?` (`None` exactly when the language has no
parser or the parse fails — chunker.rs:55-72): the strategy dispatch, then
`optimize_chunks`, the size filter — which retains every chunk within
`[100, 2000]` with no exception for a sole chunk — then the three
summary-only passes.  The `Result` of the source is `Ok` on this entire
path, so the embedding returns the list directly. -/
def chunk_file (tree? : Option TreeNode) (path content lang rev : Str) : List Chunk :=
  pairwiseNotes tree? (fillSummaries (addOverlapNote
    ((optimize_chunks (dispatchChunks tree? path content lang rev)).filter
      sizeWithinConfig)))

/-- Verification helper: a chunk with its advisory `summary` blanked.  The
three passes after the size filter of `chunk_file` change only summaries;
comparing images under `eraseSummary` captures that. -/
def eraseSummary (c : Chunk) : Chunk := { c with summary := none }

/-- Verification helper: a chunk with its `rev` field replaced.  Chunk ids,
merge decisions and summaries never read `rev`, which is what makes chunk
ids revision-independent. -/
def setRev (r : Str) (c : Chunk) : Chunk := { c with rev := r }

/-! Retrieval-side model: `IndexService::search_similar` (index_svc.rs:257-369)
and `payload_to_chunk` (index_svc.rs:373-415).  The Qdrant network call is an
external collaborator; the embedding takes the raw `response.result` list as
input and models the filtering and hydration that the source performs on it. -/

/-- A Qdrant payload value, as far as the retrieval code inspects it
(`StringValue`, `IntegerValue`, or anything else). -/
inductive QdrantValue where
  | strVal (s : Str)
  | intVal (n : Int)
  | otherVal
deriving DecidableEq

/-- A payload map (`HashMap<String, Value>`), keyed by first match. -/
abbrev QdrantPayload := List (Str × QdrantValue)

/-- `payload.get(key)` on the map model. -/
def payloadGet (p : QdrantPayload) (k : Str) : Option QdrantValue :=
  (p.find? (fun kv => decide (kv.1 = k))).map (fun kv => kv.2)

/-- The `get("k")` + `StringValue` pattern used by both the filters
(index_svc.rs:297-300, 330-337) and `get_string` (index_svc.rs:377-385). -/
def payloadGetString (p : QdrantPayload) (k : Str) : Option Str :=
  match payloadGet p k with
  | some (QdrantValue.strVal s) => some s
  | _ => none

/-- The `get("k")` + `IntegerValue` pattern of `get_usize`
(index_svc.rs:394-402); the `n as usize` cast reinterprets the `i64` as a
64-bit unsigned value. -/
def payloadGetUsize (p : QdrantPayload) (k : Str) : Option Nat :=
  match payloadGet p k with
  | some (QdrantValue.intVal n) => some ((n % ((2 : Int) ^ 64)).toNat)
  | _ => none

/-- One raw Qdrant search hit: its payload and its `f32` score (modelled as
an exact fraction; the retrieval code only copies the score through). -/
structure ScoredPoint where
  payload : QdrantPayload
  score : Frac
deriving DecidableEq

/-- The three repo-matching strategies of `search_similar`
(index_svc.rs:301-312): exact path-component match, substring match, or the
wildcard repos `""`, `"."`, `"*"`. -/
def repoMatchCore (path repo : Str) : Bool :=
  (splitOnChar '/' path).contains repo || strContains path repo ||
    (repo = [] ∨ repo = (".").toList ∨ repo = ("*").toList)

/-- The repo filter of `search_similar` (index_svc.rs:294-326): a payload
without a string `path` field never matches. -/
def matchesRepo (p : QdrantPayload) (repo : Str) : Bool :=
  match payloadGetString p ("path").toList with
  | some path => repoMatchCore path repo
  | none => false

/-- The branch filter of `search_similar` (index_svc.rs:328-343): the payload
must carry a string `branch` field equal to the filter. -/
def matchesBranch (p : QdrantPayload) (branch : Str) : Bool :=
  match payloadGetString p ("branch").toList with
  | some s => decide (s = branch)
  | none => false

/-- `payload_to_chunk` (index_svc.rs:373-415): `path`, `lang`, `rev`, `code`
must be strings and `size` an integer, or the conversion fails; `symbol` and
`summary` are optional.  The source draws a fresh UUID for `id`; the UUID
generator is external and no claim inspects `id`, so it is modelled as the
empty string. -/
def payload_to_chunk (p : QdrantPayload) : Option Chunk :=
  match payloadGetString p ("path").toList, payloadGetString p ("lang").toList,
      payloadGetString p ("rev").toList, payloadGetUsize p ("size").toList,
      payloadGetString p ("code").toList with
  | some path, some lang, some rev, some size, some code =>
    some { id := []
           path := path
           lang := lang
           symbol := payloadGetString p ("symbol").toList
           rev := rev
           size := size
           code := code
           summary := payloadGetString p ("summary").toList }
  | _, _, _, _, _ => none

/-- The filtering-and-hydration loop of `search_similar`
(index_svc.rs:287-368): a hit is kept when both filters pass
(`Option::is_none_or`) and its payload hydrates; hydration failures are
skipped with a warning. -/
def search_similar (raw : List ScoredPoint) (repoFilter branchFilter : Option Str) :
    List (Chunk × Frac) :=
  raw.filterMap (fun pt =>
    let mr := match repoFilter with
      | none => true
      | some repo => matchesRepo pt.payload repo
    let mb := match branchFilter with
      | none => true
      | some branch => matchesBranch pt.payload branch
    if mr && mb then (payload_to_chunk pt.payload).map (fun c => (c, pt.score)) else none)

/-! Proof-of-possession model: `validate_proof_of_possession`
(bin/retrieval_api/validation.rs:9-65).  The filesystem and the SHA-256
implementation are external collaborators (`tokio::fs`, the `sha2` crate);
the embedding abstracts them as a read function and a digest function.
Bytes are modelled as `List Nat`. -/

/-- Whether one `(path, expected)` entry increments `valid_files`
(validation.rs:19-50): a `"dummy_hash"` entry is accepted outright; otherwise
the file must be readable and its digest must equal `expected`; a read error
or a mismatch rejects the entry. -/
def entryAccepted (readFile : Str → Option (List Nat)) (sha256hex : List Nat → Str)
    (entry : Str × Str) : Bool :=
  decide (entry.2 = ("dummy_hash").toList) ||
    (match readFile entry.1 with
     | some content => decide (sha256hex content = entry.2)
     | none => false)

/-- `validate_proof_of_possession` (validation.rs:9-65): empty `file_hashes`
accepts; otherwise the request is accepted iff `valid_files > 0`.  `true`
stands for `Ok(())`, `false` for the `Err` at validation.rs:61-63.  The
`HashMap` iteration is modelled as a list of entries; the verdict only counts
accepted entries, so it is independent of iteration order. -/
def validate_proof_of_possession (readFile : Str → Option (List Nat))
    (sha256hex : List Nat → Str) (file_hashes : List (Str × Str)) : Bool :=
  if file_hashes = [] then true
  else 0 < file_hashes.countP (entryAccepted readFile sha256hex)

/-! Pipeline model: the batching, embedding and upsert structure of
`IndexingPipeline::process_file` (pipeline.rs:626-696) and
`process_chunk_batch` (pipeline.rs:699-790).  The embedder is an external
capability, abstracted as a function from texts to an optional vector list
(`None` standing for an `Err` from `embed_batch`); vectors are an opaque type
`V`.  `convert_chunker_to_proto_chunk` (pipeline.rs:928-940) copies every
field, so chunker chunks and proto chunks share the `Chunk` type here.  The
vector-store upsert (`IndexService::add_embedding`) is an external network
call, modelled as reliable; its own failure path is orthogonal to the claims
about batching. -/

/-- `process_chunk_batch` (pipeline.rs:699-790) for one batch: embed the
codes (pipeline.rs:704-722), fail on an embedder error, fail when the vector
count differs from the batch length (pipeline.rs:724-732), and otherwise
upsert each `(chunk, vector)` pair in order (pipeline.rs:739-771).  `none`
is the `Err` return; `some ups` lists the performed upserts. -/
def process_chunk_batch {V : Type} (embed : List Str → Option (List V))
    (batch : List Chunk) : Option (List (Chunk × V)) :=
  match embed (batch.map (fun c => c.code)) with
  | none => none
  | some vectors =>
    if vectors.length = batch.length then some (batch.zip vectors) else none

/-- The upserts contributed by one batch: those performed when the batch
succeeds, none when it fails before upserting. -/
def batchUpserts {V : Type} (embed : List Str → Option (List V))
    (batch : List Chunk) : List (Chunk × V) :=
  (process_chunk_batch embed batch).getD []

/-- The `for (batch_idx, batch)` loop of `process_file` (pipeline.rs:645-678):
batches are processed in order; the first failing batch aborts the file with
an error (`false`), leaving the upserts of the earlier batches in place. -/
def processBatchList {V : Type} (embed : List Str → Option (List V)) :
    List (List Chunk) → List (Chunk × V) × Bool
  | [] => ([], true)
  | b :: bs =>
    match process_chunk_batch embed b with
    | none => ([], false)
    | some ups =>
      let rest := processBatchList embed bs
      (ups ++ rest.1, rest.2)

/-- The chunk-processing phase of `process_file` (pipeline.rs:626-696):
split into batches of `batch_size` and run them in order.  The result pairs
the upserts that reached the index with the success flag (`false` is the
`Err` return of pipeline.rs:675). -/
def process_file {V : Type} (embed : List Str → Option (List V)) (batchSize : Nat)
    (chunks : List Chunk) : List (Chunk × V) × Bool :=
  processBatchList embed (chunksOf batchSize chunks)

/-! Language detection: `IndexingPipeline::get_language_from_path`
(pipeline.rs:895-900) and `detect_language_from_extension`
(forge_domain/src/chunking.rs:31-54), plus the `unwrap_or("text")` applied by
its caller (forge_services/src/indexing/indexing_service.rs:280-281). -/

/-- The final component of a path (`Path::file_name` for the plain relative
paths used here). -/
def pathFileName (p : Str) : Str := (splitOnChar '/' p).getLastD []

/-- `Path::extension`: the part of the file name after the last `'.'`; `none`
when there is no `'.'`, or when the only `'.'` is the leading one of a
dotfile. -/
def pathExtension (p : Str) : Option Str :=
  let n := pathFileName p
  match splitOnChar '.' n with
  | [] => none
  | [_] => none
  | parts =>
    if n.head? = some '.' ∧ parts.length = 2 then none else some (parts.getLastD [])

/-- `IndexingPipeline::get_language_from_path` (pipeline.rs:895-900): the
lowercased extension itself, `"text"` only when the path has no extension. -/
def get_language_from_path (p : Str) : Str :=
  match pathExtension p with
  | some ext => toLowerStr ext
  | none => ("text").toList

/-- The extension table of `detect_language_from_extension`
(forge_domain/src/chunking.rs:34-52). -/
def extLangTable : List (Str × Str) :=
  ([("rs", "rust"), ("py", "python"), ("js", "javascript"), ("ts", "typescript"),
    ("java", "java"), ("go", "go"), ("c", "c"), ("cpp", "cpp"), ("cc", "cpp"),
    ("cxx", "cpp"), ("md", "markdown"), ("txt", "text"), ("json", "json"),
    ("yaml", "yaml"), ("yml", "yaml"), ("toml", "toml"), ("xml", "xml"),
    ("html", "html"), ("css", "css"), ("scss", "scss"), ("sass", "scss")]).map
    (fun kv => (kv.1.toList, kv.2.toList))

/-- `detect_language_from_extension` (forge_domain/src/chunking.rs:31-54):
canonical tag for a known lowercased extension, `None` otherwise. -/
def detect_language_from_extension (p : Str) : Option Str :=
  (pathExtension p).bind (fun ext =>
    (extLangTable.find? (fun kv => decide (kv.1 = toLowerStr ext))).map (fun kv => kv.2))

/-! Health endpoint model: `health_handler`
(bin/retrieval_api/handlers.rs:16-34).  The UUID request id and the log lines
are external effects; the `?detailed` flag only selects an extra log line and
never reaches the response. -/

/-- The response body of `GET /health` (handlers.rs:23-27). -/
structure HealthResponse where
  status : Str
  version : Str
  uptime_seconds : Nat
deriving DecidableEq

/-- `health_handler` (handlers.rs:16-34): always `Ok` with a hard-coded
`"healthy"` status and `uptime_seconds: 0`. -/
def health_handler (detailed : Bool) (version : Str) : HealthResponse :=
  { status := ("healthy").toList, version := version, uptime_seconds := 0 }

/-! Concrete inputs used by witnesses and counterexamples. -/

/-- A single-line 150-byte file body: its fallback chunk is within the size
bounds, so `chunk_file` retains it. -/
def contentA : Str := List.replicate 150 'a'

/-- The chunk `chunk_file "p" contentA "text" "r"` returns: one fallback
window over the single line, with the `"Code block"` summary filled in by the
summary pass. -/
def chunkA : Chunk :=
  { id := ("p:0:1").toList
    path := ("p").toList
    lang := ("text").toList
    symbol := none
    rev := ("r").toList
    size := 150
    code := contentA
    summary := some (("Code block").toList) }

/-- Left chunk of the merge counterexample: 90 bytes recorded, keyword set
`{while}`, identifier set `{while, aa11}`. -/
def chunkSmallL : Chunk :=
  { id := ("L").toList
    path := ("p").toList
    lang := ("text").toList
    symbol := none
    rev := ("r").toList
    size := 90
    code := ("while aa11").toList
    summary := none }

/-- Right chunk of the merge counterexample: 3910 bytes recorded, keyword set
`{match}`, identifier set `{match, bb22}` — disjoint from `chunkSmallL`, so
the similarity is exactly 0.  The combined size 4000 lies in the region
`[3000, 5000)` where the spec formula and the code formula disagree; a pair
with `byte_size = len(code)` in that region needs several kilobytes of code,
beyond kernel-reduction reach, so the size fields here are set directly (they
are independent fields of the Rust struct, and `optimize_chunks` reads only
them for the thresholds). -/
def chunkBigR : Chunk :=
  { id := ("R").toList
    path := ("p").toList
    lang := ("text").toList
    symbol := none
    rev := ("r").toList
    size := 3910
    code := ("match bb22").toList
    summary := none }

/-- Left chunk of the merge witness: 50 recorded bytes. -/
def chunkW1 : Chunk :=
  { id := ("w1").toList
    path := ("p").toList
    lang := ("text").toList
    symbol := none
    rev := ("r").toList
    size := 50
    code := List.replicate 50 'a'
    summary := none }

/-- Right chunk of the merge witness: 40 recorded bytes, so the combined 90
is below 3000 and the pair merges. -/
def chunkW2 : Chunk :=
  { id := ("w2").toList
    path := ("p").toList
    lang := ("text").toList
    symbol := none
    rev := ("r").toList
    size := 40
    code := List.replicate 40 'b'
    summary := none }

/-- A raw search hit whose payload matches repo `forge` and branch `R1` and
hydrates into a chunk. -/
def pointW : ScoredPoint :=
  { payload :=
      [(("path").toList, QdrantValue.strVal (("acme/forge/src/a.rs").toList)),
       (("lang").toList, QdrantValue.strVal (("rust").toList)),
       (("rev").toList, QdrantValue.strVal (("R1").toList)),
       (("size").toList, QdrantValue.intVal 10),
       (("code").toList, QdrantValue.strVal (("fn a() {}").toList)),
       (("branch").toList, QdrantValue.strVal (("R1").toList))]
    score := { num := 1, den := 2 } }

/-- The hydration of `pointW`'s payload. -/
def chunkPointW : Chunk :=
  { id := []
    path := ("acme/forge/src/a.rs").toList
    lang := ("rust").toList
    symbol := none
    rev := ("R1").toList
    size := 10
    code := ("fn a() {}").toList
    summary := none }

/-- Three pipeline chunks whose codes are `"a"`, `"b"`, `"c"`. -/
def chunkPa : Chunk :=
  { id := ("a").toList, path := ("f").toList, lang := ("text").toList, symbol := none,
    rev := ("r").toList, size := 1, code := ("a").toList, summary := none }

/-- Second pipeline chunk. -/
def chunkPb : Chunk :=
  { id := ("b").toList, path := ("f").toList, lang := ("text").toList, symbol := none,
    rev := ("r").toList, size := 1, code := ("b").toList, summary := none }

/-- Third pipeline chunk. -/
def chunkPc : Chunk :=
  { id := ("c").toList, path := ("f").toList, lang := ("text").toList, symbol := none,
    rev := ("r").toList, size := 1, code := ("c").toList, summary := none }

/-- An embedder that answers the batch `["a", "b"]` with two vectors and
fails on every other batch — in particular on the second batch `["c"]`. -/
def embedW (texts : List Str) : Option (List Nat) :=
  if texts = [("a").toList, ("b").toList] then some [0, 1] else none

/-! Helper lemmas. -/

/-- An entry is counted as valid exactly when it is a dummy hash or the file
reads back with the expected digest. -/
theorem entryAccepted_iff (readFile : Str → Option (List Nat)) (sha256hex : List Nat → Str)
    (e : Str × Str) :
    entryAccepted readFile sha256hex e = true ↔
      e.2 = ("dummy_hash").toList ∨
        ∃ content, readFile e.1 = some content ∧ sha256hex content = e.2 := by
  unfold entryAccepted
  cases heq : readFile e.1 with
  | none =>
    simp only [heq, Bool.or_false, decide_eq_true_eq]
    constructor
    · exact Or.inl
    · rintro (h | ⟨c, hc, _⟩)
      · exact h
      · simp [heq] at hc
  | some content =>
    simp only [heq, Bool.or_eq_true, decide_eq_true_eq]
    constructor
    · rintro (h | h)
      · exact Or.inl h
      · exact Or.inr ⟨content, rfl, h⟩
    · rintro (h | ⟨c, hc, hsha⟩)
      · exact Or.inl h
      · simp only [heq, Option.some.injEq] at hc
        subst hc
        exact Or.inr hsha

/-- A successfully hydrated chunk carries exactly the string `path` field of
its payload. -/
theorem payload_to_chunk_path (p : QdrantPayload) (c : Chunk)
    (h : payload_to_chunk p = some c) :
    payloadGetString p (("path").toList) = some c.path := by
  unfold payload_to_chunk at h
  cases h1 : payloadGetString p (("path").toList) <;> rw [h1] at h
  · simp at h
  · cases h2 : payloadGetString p (("lang").toList) <;> rw [h2] at h
    · simp at h
    · cases h3 : payloadGetString p (("rev").toList) <;> rw [h3] at h
      · simp at h
      · cases h4 : payloadGetUsize p (("size").toList) <;> rw [h4] at h
        · simp at h
        · cases h5 : payloadGetString p (("code").toList) <;> rw [h5] at h
          · simp at h
          · injection h with h
            subst h
            rfl

/-- `chunksOfF` on the empty list ignores the fuel. -/
theorem chunksOfF_nil {α : Type} (fuel n : Nat) : chunksOfF (α := α) fuel n [] = [] := by
  cases fuel <;> rfl

/-- Any sufficient fuel computes the same batch decomposition. -/
theorem chunksOfF_fuel_irrelevant {α : Type} (n : Nat) (hn : 0 < n) :
    ∀ (f1 f2 : Nat) (l : List α), l.length ≤ f1 → l.length ≤ f2 →
      chunksOfF f1 n l = chunksOfF f2 n l := by
  intro f1
  induction f1 with
  | zero =>
    intro f2 l h1 _
    rw [List.length_eq_zero.mp (Nat.le_zero.mp h1)]
    exact (chunksOfF_nil 0 n).trans (chunksOfF_nil f2 n).symm
  | succ f1 ih =>
    intro f2 l h1 h2
    cases l with
    | nil => exact (chunksOfF_nil _ n).trans (chunksOfF_nil f2 n).symm
    | cons x xs =>
      cases f2 with
      | zero => simp at h2
      | succ f2 =>
        simp only [chunksOfF]
        have hd : ((x :: xs).drop n).length ≤ f1 := by
          rw [List.length_drop]
          omega
        have hd2 : ((x :: xs).drop n).length ≤ f2 := by
          rw [List.length_drop]
          omega
        rw [ih f2 _ hd hd2]

/-- With positive batch size, the batch decomposition concatenates back to
the original list. -/
theorem chunksOf_flatten {α : Type} (n : Nat) (hn : 0 < n) :
    ∀ (fuel : Nat) (l : List α), l.length ≤ fuel → (chunksOfF fuel n l).flatten = l := by
  intro fuel
  induction fuel with
  | zero =>
    intro l h
    rw [List.length_eq_zero.mp (Nat.le_zero.mp h)]
    rfl
  | succ fuel ih =>
    intro l h
    cases l with
    | nil => rfl
    | cons x xs =>
      simp only [chunksOfF, List.flatten_cons]
      rw [ih _ (by rw [List.length_drop]; omega)]
      exact List.take_append_drop n (x :: xs)

/-- With positive batch size, every batch is non-empty and no longer than the
batch size. -/
theorem chunksOf_mem_props {α : Type} (n : Nat) (hn : 0 < n) :
    ∀ (fuel : Nat) (l : List α), l.length ≤ fuel →
      ∀ b ∈ chunksOfF fuel n l, b ≠ [] ∧ b.length ≤ n := by
  intro fuel
  induction fuel with
  | zero =>
    intro l h
    rw [List.length_eq_zero.mp (Nat.le_zero.mp h)]
    intro b hb
    simp [chunksOfF_nil] at hb
  | succ fuel ih =>
    intro l h b hb
    cases l with
    | nil => simp [chunksOfF_nil] at hb
    | cons x xs =>
      simp only [chunksOfF, List.mem_cons] at hb
      cases hb with
      | inl hb =>
        subst hb
        constructor
        · obtain ⟨m, hm⟩ := Nat.exists_eq_succ_of_ne_zero (Nat.pos_iff_ne_zero.mp hn)
          subst hm
          simp [List.take_cons]
        · rw [List.length_take]
          exact min_le_left n _
      | inr hb => exact ih _ (by rw [List.length_drop]; omega) b hb

/-- With positive batch size, every batch except possibly the last has length
exactly the batch size. -/
theorem chunksOf_dropLast_props {α : Type} (n : Nat) (hn : 0 < n) :
    ∀ (fuel : Nat) (l : List α), l.length ≤ fuel →
      ∀ b ∈ (chunksOfF fuel n l).dropLast, b.length = n := by
  intro fuel
  induction fuel with
  | zero =>
    intro l h b hb
    rw [List.length_eq_zero.mp (Nat.le_zero.mp h)] at hb
    simp [chunksOfF_nil] at hb
  | succ fuel ih =>
    intro l h b hb
    cases l with
    | nil => simp [chunksOfF_nil] at hb
    | cons x xs =>
      simp only [chunksOfF] at hb
      cases hrest : chunksOfF fuel n ((x :: xs).drop n) with
      | nil => rw [hrest] at hb; simp at hb
      | cons r rs =>
        rw [hrest] at hb
        have hlen : n ≤ (x :: xs).length := by
          by_contra hlt
          push_neg at hlt
          have hdrop : (x :: xs).drop n = [] := List.drop_eq_nil_of_le (Nat.le_of_lt hlt)
          rw [hdrop, chunksOfF_nil] at hrest
          exact List.noConfusion hrest
        rw [List.dropLast_cons₂, List.mem_cons] at hb
        cases hb with
        | inl hb =>
          subst hb
          rw [List.length_take]
          exact min_eq_left hlen
        | inr hb =>
          rw [← hrest] at hb
          exact ih _ (by rw [List.length_drop]; omega) b hb

/-- When every earlier batch succeeds and one batch fails, the batch loop
stops with an error, keeping exactly the earlier batches' upserts. -/
theorem processBatchList_fail {V : Type} (embed : List Str → Option (List V)) :
    ∀ (pre : List (List Chunk)) (b : List Chunk) (post : List (List Chunk)),
      (∀ p ∈ pre, process_chunk_batch embed p ≠ none) →
      process_chunk_batch embed b = none →
      processBatchList embed (pre ++ b :: post) =
        ((pre.map (batchUpserts embed)).flatten, false) := by
  intro pre
  induction pre with
  | nil =>
    intro b post _ hb
    simp [processBatchList, hb]
  | cons p pre ih =>
    intro b post hpre hb
    have hp := hpre p (List.mem_cons_self ..)
    cases hup : process_chunk_batch embed p with
    | none => exact absurd hup hp
    | some ups =>
      have ihres := ih b post (fun q hq => hpre q (List.mem_cons_of_mem _ hq)) hb
      simp only [List.cons_append, processBatchList, hup, List.append_eq, ihres, List.map_cons,
        List.flatten_cons, batchUpserts, Option.getD_some]

/-- `splitOnChar` always returns at least one piece. -/
theorem splitOnChar_ne_nil (sep : Char) : ∀ l : Str, splitOnChar sep l ≠ [] := by
  intro l
  induction l with
  | nil => simp [splitOnChar]
  | cons c rest ih =>
    simp only [splitOnChar]
    by_cases h : c = sep
    · simp [h]
    · rw [if_neg h]
      cases hr : splitOnChar sep rest with
      | nil => exact absurd hr ih
      | cons a t => simp

/-- `splitOnChar` returns one piece more than the number of separators. -/
theorem splitOnChar_length (sep : Char) :
    ∀ l : Str, (splitOnChar sep l).length = l.count sep + 1 := by
  intro l
  induction l with
  | nil => simp [splitOnChar]
  | cons c rest ih =>
    simp only [splitOnChar]
    by_cases h : c = sep
    · subst h
      simp [List.count_cons_self, ih]
    · rw [if_neg h]
      cases hr : splitOnChar sep rest with
      | nil => exact absurd hr (splitOnChar_ne_nil sep rest)
      | cons a t =>
        rw [hr] at ih
        simp only [List.length_cons] at ih ⊢
        rw [List.count_cons_of_ne (fun hcs => h hcs.symm)]
        exact ih

/-- Non-empty content has at least one line. -/
theorem rustLines_ne_nil (content : Str) (h : content ≠ []) : rustLines content ≠ [] := by
  unfold rustLines
  rw [if_neg h]
  dsimp only
  by_cases hl : content.getLast? = some '\n'
  · rw [if_pos hl]
    have hmem : '\n' ∈ content := by
      have h1 : '\n' ∈ content.getLast? := by rw [hl]; rfl
      obtain ⟨hne, heq⟩ := List.mem_getLast?_eq_getLast h1
      exact heq ▸ List.getLast_mem hne
    have hcount : 0 < content.count '\n' := List.count_pos_iff_mem.mpr hmem
    have hlen2 : 2 ≤ (splitOnChar '\n' content).length := by
      rw [splitOnChar_length]
      omega
    intro hnil
    rw [List.map_eq_nil_iff] at hnil
    have := congrArg List.length hnil
    rw [List.length_dropLast] at this
    simp at this
    omega
  · rw [if_neg hl]
    simp

/-- One fallback window always makes progress past its start line. -/
theorem fallbackEnd_gt (lines : List Str) (s : Nat) (h : s < lines.length) :
    s < fallbackEnd lines s := by
  unfold fallbackEnd
  dsimp only
  have he0 : s < min (s + 50) lines.length := lt_min (by omega) h
  split
  · cases hfind : findSnapIdx lines (s + 30) (min (s + 50) lines.length) with
    | none => exact he0
    | some i =>
      dsimp only
      have hmem := List.mem_of_find?_eq_some hfind
      rw [List.mem_reverse, List.mem_range'_1] at hmem
      omega
  · exact he0

/-- One fallback window never runs past the end of file. -/
theorem fallbackEnd_le (lines : List Str) (s : Nat) :
    fallbackEnd lines s ≤ lines.length := by
  unfold fallbackEnd
  dsimp only
  have he0 : min (s + 50) lines.length ≤ lines.length := min_le_right _ _
  split
  · cases hfind : findSnapIdx lines (s + 30) (min (s + 50) lines.length) with
    | none => exact he0
    | some i =>
      dsimp only
      have hmem := List.mem_of_find?_eq_some hfind
      rw [List.mem_reverse, List.mem_range'_1] at hmem
      omega
  · exact he0

/-- Any sufficient fuel computes the same fallback chunk list. -/
theorem fallbackGoF_fuel_irrelevant (path lang rev : Str) (lines : List Str) :
    ∀ (f1 f2 s : Nat), lines.length - s ≤ f1 → lines.length - s ≤ f2 →
      fallbackGoF path lang rev lines f1 s = fallbackGoF path lang rev lines f2 s := by
  intro f1
  induction f1 with
  | zero =>
    intro f2 s h1 _
    cases f2 with
    | zero => rfl
    | succ f2 =>
      have hs : ¬ s < lines.length := by omega
      simp [fallbackGoF, hs]
  | succ f1 ih =>
    intro f2 s h1 h2
    cases f2 with
    | zero =>
      have hs : ¬ s < lines.length := by omega
      simp [fallbackGoF, hs]
    | succ f2 =>
      by_cases hs : s < lines.length
      · simp only [fallbackGoF, if_pos hs]
        have hgt := fallbackEnd_gt lines s hs
        have hle := fallbackEnd_le lines s
        rw [ih f2 (fallbackEnd lines s) (by omega) (by omega)]
      · simp [fallbackGoF, hs]

/-- Fallback chunking of non-empty content is non-empty. -/
theorem fallback_chunking_ne_nil (path content lang rev : Str) (h : content ≠ []) :
    fallback_chunking path content lang rev ≠ [] := by
  unfold fallback_chunking
  have hlines := rustLines_ne_nil content h
  obtain ⟨m, hm⟩ := Nat.exists_eq_succ_of_ne_zero
    (fun h0 => hlines (List.length_eq_zero.mp h0))
  rw [hm]
  have hs : 0 < (rustLines content).length := by omega
  simp [fallbackGoF, hs]

/-- `optimize_chunks` never empties a non-empty list. -/
theorem optimize_chunks_ne_nil : ∀ l : List Chunk, l ≠ [] → optimize_chunks l ≠ [] := by
  intro l hl
  match l with
  | [] => exact absurd rfl hl
  | [a] => simp [optimize_chunks]
  | a :: b :: rest =>
    simp only [optimize_chunks]
    split
    · split
      · simp
      · simp
    · simp

/-- The overlap pass changes only summaries. -/
theorem addOverlapNote_erase (l : List Chunk) :
    (addOverlapNote l).map eraseSummary = l.map eraseSummary := by
  unfold addOverlapNote
  split
  · rw [List.map_map]
    apply List.map_congr_left
    intro c _
    cases hc : c.summary <;> simp [eraseSummary, hc]
  · rfl

/-- The summary-fill pass changes only summaries. -/
theorem fillSummaries_erase (l : List Chunk) :
    (fillSummaries l).map eraseSummary = l.map eraseSummary := by
  unfold fillSummaries
  rw [List.map_map]
  apply List.map_congr_left
  intro c _
  by_cases hc : c.summary = none <;> simp [eraseSummary, hc]

/-- One pairwise-similarity step changes only the summary. -/
theorem pairwiseStep_erase (tr : Option TreeNode) (c : Chunk) (x : Nat × Chunk) :
    eraseSummary (pairwiseStep tr c x) = eraseSummary c := by
  unfold pairwiseStep
  dsimp only
  split
  · split <;> simp [eraseSummary]
  · rfl

/-- The complexity remark changes only the summary. -/
theorem complexityNote_erase (tr : Option TreeNode) (c : Chunk) :
    eraseSummary (complexityNote tr c) = eraseSummary c := by
  unfold complexityNote
  cases tr with
  | none => rfl
  | some t => cases hc : c.summary <;> simp [eraseSummary, hc]

/-- Folding pairwise-similarity steps changes only the summary. -/
theorem foldl_pairwiseStep_erase (tr : Option TreeNode) :
    ∀ (l : List (Nat × Chunk)) (c : Chunk),
      eraseSummary (l.foldl (pairwiseStep tr) c) = eraseSummary c := by
  intro l
  induction l with
  | nil => intro c; rfl
  | cons x t ih =>
    intro c
    rw [List.foldl_cons, ih, pairwiseStep_erase]

/-- The pairwise pass changes only summaries. -/
theorem pairwiseNotes_erase (tr : Option TreeNode) (l : List Chunk) :
    (pairwiseNotes tr l).map eraseSummary = l.map eraseSummary := by
  unfold pairwiseNotes
  split
  · rw [List.mapIdx_eq_enum_map, List.map_map]
    have hcongr : ∀ p ∈ l.enum,
        (eraseSummary ∘ Function.uncurry (fun i ci =>
          (List.enumFrom (i + 1) (l.drop (i + 1))).foldl (pairwiseStep tr)
            (complexityNote tr ci))) p =
          (eraseSummary ∘ Prod.snd) p := by
      intro p _
      exact (foldl_pairwiseStep_erase tr _ _).trans (complexityNote_erase tr p.2)
    rw [List.map_congr_left hcongr, ← List.map_map, List.enum_map_snd]
  · rfl

/-- Everything `chunk_file` does after the size filter only rewrites
summaries. -/
theorem chunk_file_erase (tr : Option TreeNode) (path content lang rev : Str) :
    (chunk_file tr path content lang rev).map eraseSummary =
      ((optimize_chunks (dispatchChunks tr path content lang rev)).filter
        sizeWithinConfig).map eraseSummary := by
  unfold chunk_file
  rw [pairwiseNotes_erase, fillSummaries_erase, addOverlapNote_erase]

/-- The summary step of `optimize_chunks` keeps size and code. -/
theorem withComplexitySummary_size_code (c : Chunk) :
    (withComplexitySummary c).size = c.size ∧ (withComplexitySummary c).code = c.code := by
  unfold withComplexitySummary
  split <;> exact ⟨rfl, rfl⟩

/-- All chunks of a fallback run record their code's byte length. -/
theorem fallbackGoF_sizeInv (path lang rev : Str) (lines : List Str) :
    ∀ (fuel s : Nat), ∀ ch ∈ fallbackGoF path lang rev lines fuel s,
      ch.size = byteSize ch.code := by
  intro fuel
  induction fuel with
  | zero => intro s ch hch; simp [fallbackGoF] at hch
  | succ fuel ih =>
    intro s ch hch
    by_cases hs : s < lines.length
    · simp only [fallbackGoF, if_pos hs, List.mem_cons] at hch
      cases hch with
      | inl h => subst h; rfl
      | inr h => exact ih _ ch h
    · simp [fallbackGoF, hs] at hch

/-- `optimize_chunks` preserves the size-records-code-length invariant: the
merge step recomputes the size from the concatenated code, and the summary
step touches neither field. -/
theorem optimize_chunks_sizeInv :
    ∀ l : List Chunk, (∀ c ∈ l, c.size = byteSize c.code) →
      ∀ c ∈ optimize_chunks l, c.size = byteSize c.code
  | [] => by intro _ c hc; simp [optimize_chunks] at hc
  | [a] => by
    intro h c hc
    simp only [optimize_chunks, List.mem_singleton] at hc
    subst hc
    rw [(withComplexitySummary_size_code a).1, (withComplexitySummary_size_code a).2]
    exact h a (by simp)
  | a :: b :: rest => by
    intro h c hc
    simp only [optimize_chunks] at hc
    by_cases ha : a.size < 100
    · rw [if_pos ha] at hc
      by_cases hm : shouldMerge a b = true
      · rw [if_pos hm] at hc
        rcases List.mem_cons.mp hc with h1 | h2
        · subst h1
          rw [(withComplexitySummary_size_code _).1, (withComplexitySummary_size_code _).2]
          rfl
        · exact optimize_chunks_sizeInv rest
            (fun x hx => h x (List.mem_cons_of_mem _ (List.mem_cons_of_mem _ hx))) c h2
      · rw [if_neg hm] at hc
        rcases List.mem_cons.mp hc with h1 | h2
        · subst h1
          rw [(withComplexitySummary_size_code _).1, (withComplexitySummary_size_code _).2]
          exact h a (by simp)
        · exact optimize_chunks_sizeInv (b :: rest)
            (fun x hx => h x (List.mem_cons_of_mem _ hx)) c h2
    · rw [if_neg ha] at hc
      rcases List.mem_cons.mp hc with h1 | h2
      · subst h1
        rw [(withComplexitySummary_size_code _).1, (withComplexitySummary_size_code _).2]
        exact h a (by simp)
      · exact optimize_chunks_sizeInv (b :: rest)
          (fun x hx => h x (List.mem_cons_of_mem _ hx)) c h2

/-- The merge decision reads only language, sizes and code, never `rev`. -/
theorem shouldMerge_setRev (r : Str) (a b : Chunk) :
    shouldMerge (setRev r a) (setRev r b) = shouldMerge a b := rfl

/-- The summary step commutes with replacing `rev`. -/
theorem withComplexitySummary_setRev (r : Str) (c : Chunk) :
    withComplexitySummary (setRev r c) = setRev r (withComplexitySummary c) := by
  unfold withComplexitySummary setRev
  dsimp only
  split <;> rfl

/-- The merge constructor commutes with replacing `rev` (the merged chunk
keeps the left chunk's `rev`). -/
theorem mergeChunks_setRev (r : Str) (a b : Chunk) :
    mergeChunks (setRev r a) (setRev r b) = setRev r (mergeChunks a b) := by
  unfold mergeChunks setRev
  dsimp only

/-- Fallback chunking writes the given revision into the `rev` field and
nowhere else. -/
theorem fallbackGoF_setRev (path lang r1 r2 : Str) (lines : List Str) :
    ∀ (fuel s : Nat), fallbackGoF path lang r1 lines fuel s =
      (fallbackGoF path lang r2 lines fuel s).map (setRev r1) := by
  intro fuel
  induction fuel with
  | zero => intro s; rfl
  | succ fuel ih =>
    intro s
    by_cases hs : s < lines.length
    · simp only [fallbackGoF, if_pos hs, List.map_cons]
      rw [← ih]
      rfl
    · simp [fallbackGoF, hs]

/-- `optimize_chunks` commutes with replacing `rev` on every chunk: none of
its decisions reads `rev`. -/
theorem optimize_map_setRev (r : Str) :
    ∀ l : List Chunk, optimize_chunks (l.map (setRev r)) = (optimize_chunks l).map (setRev r)
  | [] => rfl
  | [a] => by
    simp only [List.map_cons, List.map_nil, optimize_chunks]
    rw [withComplexitySummary_setRev]
  | a :: b :: rest => by
    simp only [List.map_cons, optimize_chunks]
    rw [show (setRev r a).size = a.size from rfl, shouldMerge_setRev]
    by_cases ha : a.size < 100
    · rw [if_pos ha, if_pos ha]
      by_cases hm : shouldMerge a b = true
      · rw [if_pos hm, if_pos hm, List.map_cons, mergeChunks_setRev,
          withComplexitySummary_setRev, optimize_map_setRev r rest]
      · rw [if_neg hm, if_neg hm, List.map_cons, withComplexitySummary_setRev,
          ← List.map_cons (setRev r), optimize_map_setRev r (b :: rest)]
    · rw [if_neg ha, if_neg ha, List.map_cons, withComplexitySummary_setRev,
        ← List.map_cons (setRev r), optimize_map_setRev r (b :: rest)]

/-- The size filter commutes with replacing `rev`. -/
theorem filter_sizeWithinConfig_setRev (r : Str) :
    ∀ l : List Chunk,
      (l.map (setRev r)).filter sizeWithinConfig =
        (l.filter sizeWithinConfig).map (setRev r) := by
  intro l
  induction l with
  | nil => rfl
  | cons a t ih =>
    simp only [List.map_cons, List.filter_cons]
    rw [show sizeWithinConfig (setRev r a) = sizeWithinConfig a from rfl]
    cases h : sizeWithinConfig a <;> simp [ih]

/-- Lists with equal summary-blanked images have equal id sequences. -/
theorem map_id_of_erase (X Y : List Chunk) (h : X.map eraseSummary = Y.map eraseSummary) :
    X.map (fun c => c.id) = Y.map (fun c => c.id) := by
  have h2 : (X.map eraseSummary).map (fun c => c.id) =
      (Y.map eraseSummary).map (fun c => c.id) := by rw [h]
  rw [List.map_map, List.map_map] at h2
  exact h2

/-- For equal-language neighbours, the Bool merge decision coincides with the
code's formula `(similarity > 0.3 ∨ combined < 3000) ∧ combined < 5000`. -/
theorem shouldMerge_iff (c1 c2 : Chunk) (h2 : c1.lang = c2.lang) :
    shouldMerge c1 c2 = true ↔
      ((fracLt { num := 3, den := 10 } (calculate_chunk_similarity c1 c2) = true ∨
          c1.size + c2.size < 3000) ∧ c1.size + c2.size < 5000) := by
  unfold shouldMerge
  dsimp only
  rw [if_pos h2, decide_eq_true_eq]

/-- Inserting into a sorted list adds one element. -/
theorem insertSorted_length {α : Type} (lt : α → α → Bool) (x : α) :
    ∀ l : List α, (insertSorted lt x l).length = l.length + 1
  | [] => rfl
  | y :: ys => by
    unfold insertSorted
    split
    · rfl
    · simp [insertSorted_length lt x ys]

/-- The stable sort is a permutation in particular in length. -/
theorem stableSort_length {α : Type} (lt : α → α → Bool) (l : List α) :
    (stableSort lt l).length = l.length := by
  unfold stableSort
  suffices h : ∀ acc : List α,
      (l.foldl (fun acc x => insertSorted lt x acc) acc).length =
        acc.length + l.length by
    simpa using h []
  induction l with
  | nil => intro acc; simp
  | cons a t ih =>
    intro acc
    rw [List.foldl_cons, ih, insertSorted_length, List.length_cons]
    omega

/-- Membership in an insertion is membership in the parts. -/
theorem mem_insertSorted {α : Type} (lt : α → α → Bool) (x y : α) :
    ∀ l : List α, y ∈ insertSorted lt x l → y = x ∨ y ∈ l
  | [] => by intro h; simp only [insertSorted, List.mem_singleton] at h; exact Or.inl h
  | z :: zs => by
    intro h
    unfold insertSorted at h
    split at h
    · rcases List.mem_cons.mp h with h1 | h1
      · exact Or.inl h1
      · exact Or.inr h1
    · rcases List.mem_cons.mp h with h1 | h1
      · exact Or.inr (h1 ▸ List.mem_cons_self z zs)
      · rcases mem_insertSorted lt x y zs h1 with h2 | h2
        · exact Or.inl h2
        · exact Or.inr (List.mem_cons_of_mem z h2)

/-- The stable sort creates no elements. -/
theorem mem_stableSort {α : Type} (lt : α → α → Bool) (l : List α) (y : α)
    (h : y ∈ stableSort lt l) : y ∈ l := by
  unfold stableSort at h
  suffices hgen : ∀ (l acc : List α),
      y ∈ l.foldl (fun acc x => insertSorted lt x acc) acc → y ∈ acc ∨ y ∈ l by
    rcases hgen l [] h with h1 | h1
    · exact absurd h1 (List.not_mem_nil y)
    · exact h1
  intro l
  induction l with
  | nil => intro acc h1; exact Or.inl h1
  | cons a t ih =>
    intro acc h1
    rw [List.foldl_cons] at h1
    rcases ih (insertSorted lt a acc) h1 with h2 | h2
    · rcases mem_insertSorted lt a y acc h2 with h3 | h3
      · exact Or.inr (h3 ▸ List.mem_cons_self a t)
      · exact Or.inl h3
    · exact Or.inr (List.mem_cons_of_mem a h2)

/-- `Vec::dedup` creates no elements. -/
theorem mem_dedupAdj {α : Type} [DecidableEq α] (y : α) :
    ∀ l : List α, y ∈ dedupAdj l → y ∈ l
  | [], h => h
  | [a], h => h
  | a :: b :: rest, h => by
    unfold dedupAdj at h
    split at h
    · exact List.mem_cons_of_mem a (mem_dedupAdj y (b :: rest) h)
    · rcases List.mem_cons.mp h with h1 | h1
      · exact h1 ▸ List.mem_cons_self a (b :: rest)
      · exact List.mem_cons_of_mem a (mem_dedupAdj y (b :: rest) h1)

/-- `sort_unstable` + `dedup` create no elements. -/
theorem mem_sortDedupNat (y : Nat) (l : List Nat) (h : y ∈ sortDedupNat l) : y ∈ l :=
  mem_stableSort _ _ _ (mem_dedupAdj y _ h)

/-- Stable insertion commutes with a comparison-preserving map. -/
theorem insertSorted_map {α β : Type} (lt : α → α → Bool) (lt2 : β → β → Bool)
    (g : α → β) (hg : ∀ a b, lt2 (g a) (g b) = lt a b) (x : α) :
    ∀ l : List α, insertSorted lt2 (g x) (l.map g) = (insertSorted lt x l).map g
  | [] => rfl
  | y :: ys => by
    rw [List.map_cons]
    unfold insertSorted
    rw [hg]
    split
    · rfl
    · rw [List.map_cons, insertSorted_map lt lt2 g hg x ys]

/-- The stable sort commutes with a comparison-preserving map. -/
theorem stableSort_map {α β : Type} (lt : α → α → Bool) (lt2 : β → β → Bool)
    (g : α → β) (hg : ∀ a b, lt2 (g a) (g b) = lt a b) (l : List α) :
    stableSort lt2 (l.map g) = (stableSort lt l).map g := by
  unfold stableSort
  suffices h : ∀ acc : List α,
      (l.map g).foldl (fun acc x => insertSorted lt2 x acc) (acc.map g) =
        (l.foldl (fun acc x => insertSorted lt x acc) acc).map g by
    simpa using h []
  induction l with
  | nil => intro acc; rfl
  | cons a t ih =>
    intro acc
    rw [List.map_cons, List.foldl_cons, List.foldl_cons,
      insertSorted_map lt lt2 g hg, ih]

/-- The stable sort of a non-empty list is non-empty. -/
theorem stableSort_ne_nil {α : Type} (lt : α → α → Bool) (l : List α)
    (h : ¬ l.isEmpty = true) : stableSort lt l ≠ [] := by
  intro h0
  have hlen := congrArg List.length h0
  rw [stableSort_length, List.length_nil] at hlen
  exact h (by rw [List.isEmpty_iff, ← List.length_eq_zero]; exact hlen)

/-- Byte length is additive. -/
theorem byteSize_append (a b : Str) : byteSize (a ++ b) = byteSize a + byteSize b := by
  unfold byteSize
  rw [List.map_append, List.sum_append]

/-- Byte length of a cons. -/
theorem byteSize_cons (c : Char) (l : Str) :
    byteSize (c :: l) = c.utf8Size + byteSize l := by
  unfold byteSize
  rw [List.map_cons, List.sum_cons]

/-- The zero-offset equation of `byteDrop`. -/
theorem byteDrop_zero (l : Str) : byteDrop l 0 = l := by cases l <;> rfl

/-- The zero-length equation of `byteTake`. -/
theorem byteTake_zero (l : Str) : byteTake l 0 = [] := by cases l <;> rfl

/-- The positive-offset equation of `byteDrop`. -/
theorem byteDrop_cons (c : Char) (rest : Str) (n : Nat) (h : 0 < n) :
    byteDrop (c :: rest) n = byteDrop rest (n - c.utf8Size) := by
  obtain ⟨m, rfl⟩ : ∃ m, n = m + 1 := ⟨n - 1, by omega⟩
  rfl

/-- The positive-offset equation of `byteTake`. -/
theorem byteTake_cons (c : Char) (rest : Str) (n : Nat) (h : 0 < n) :
    byteTake (c :: rest) n =
      if c.utf8Size ≤ n then c :: byteTake rest (n - c.utf8Size) else [] := by
  obtain ⟨m, rfl⟩ : ∃ m, n = m + 1 := ⟨n - 1, by omega⟩
  rfl

/-- Dropping exactly a prefix's byte length drops the prefix. -/
theorem byteDrop_append_eq (a b : Str) : byteDrop (a ++ b) (byteSize a) = b := by
  induction a with
  | nil =>
    rw [List.nil_append, show byteSize ([] : Str) = 0 from rfl]
    exact byteDrop_zero b
  | cons c a ih =>
    have hpos := Char.utf8Size_pos c
    rw [List.cons_append, byteSize_cons,
      byteDrop_cons c (a ++ b) (c.utf8Size + byteSize a) (by omega),
      show c.utf8Size + byteSize a - c.utf8Size = byteSize a by omega]
    exact ih

/-- Taking exactly a prefix's byte length takes the prefix. -/
theorem byteTake_append_eq (a b : Str) : byteTake (a ++ b) (byteSize a) = a := by
  induction a with
  | nil =>
    rw [List.nil_append, show byteSize ([] : Str) = 0 from rfl]
    exact byteTake_zero b
  | cons c a ih =>
    have hpos := Char.utf8Size_pos c
    rw [List.cons_append, byteSize_cons,
      byteTake_cons c (a ++ b) (c.utf8Size + byteSize a) (by omega),
      if_pos (by omega : c.utf8Size ≤ c.utf8Size + byteSize a),
      show c.utf8Size + byteSize a - c.utf8Size = byteSize a by omega]
    rw [ih]

/-- Byte length of a `take` is monotone in the count. -/
theorem byteSize_take_mono (l : Str) (k m : Nat) (h : k ≤ m) :
    byteSize (l.take k) ≤ byteSize (l.take m) := by
  have h1 : (l.take m).take k = l.take k := by
    rw [List.take_take, Nat.min_eq_left h]
  calc byteSize (l.take k) = byteSize ((l.take m).take k) := by rw [h1]
    _ ≤ byteSize (l.take m) := by
        conv_rhs => rw [← List.take_append_drop k (l.take m)]
        rw [byteSize_append]
        omega

/-- Offset 0 is always a boundary. -/
theorem isBoundary_zero (content : Str) : IsBoundary content 0 :=
  ⟨0, Nat.zero_le _, rfl⟩

/-- The total byte length is always a boundary. -/
theorem isBoundary_byteSize (content : Str) : IsBoundary content (byteSize content) :=
  ⟨content.length, le_rfl, by rw [List.take_length]⟩

/-- Boundaries are within the content's byte length. -/
theorem isBoundary_le (content : Str) (n : Nat) (h : IsBoundary content n) :
    n ≤ byteSize content := by
  obtain ⟨k, hk, rfl⟩ := h
  have := byteSize_take_mono content k content.length hk
  rwa [List.take_length] at this

/-- The minimum of two boundaries is a boundary. -/
theorem isBoundary_min (content : Str) (a b : Nat) (ha : IsBoundary content a)
    (hb : IsBoundary content b) : IsBoundary content (min a b) := by
  by_cases h : a ≤ b
  · rwa [Nat.min_eq_left h]
  · rwa [Nat.min_eq_right (le_of_lt (not_le.mp h))]

/-- The slice of an explicit three-way decomposition is the middle part. -/
theorem byteSlice_append_eq (A M B : Str) :
    byteSlice (A ++ (M ++ B)) (byteSize A) (byteSize A + byteSize M) = M := by
  unfold byteSlice
  rw [byteDrop_append_eq,
    show byteSize A + byteSize M - byteSize A = byteSize M by omega]
  exact byteTake_append_eq M B

/-- A byte slice between boundaries has exactly the range's byte length: the
justification for the `size: end - start` fields of
`extract_context_chunks`. -/
theorem byteSize_byteSlice (content : Str) (s e : Nat) (hs : IsBoundary content s)
    (he : IsBoundary content e) (hse : s ≤ e) :
    byteSize (byteSlice content s e) = e - s := by
  obtain ⟨k1, hk1, hbs⟩ := hs
  obtain ⟨k2, hk2, hbe⟩ := he
  by_cases hk : k1 ≤ k2
  · have htk : (content.take k2).take k1 = content.take k1 := by
      rw [List.take_take, Nat.min_eq_left hk]
    set A := content.take k1 with hA
    set M := (content.take k2).drop k1 with hMdef
    have hM0 : content.take k2 = A ++ M := by
      conv_lhs => rw [← List.take_append_drop k1 (content.take k2)]
      rw [htk]
    have hsplit : content = A ++ (M ++ content.drop k2) := by
      conv_lhs => rw [← List.take_append_drop k2 content]
      rw [hM0, List.append_assoc]
    have hs2 : s = byteSize A := hbs.symm
    have he2 : e = byteSize A + byteSize M := by
      have h1 := congrArg byteSize hM0
      rw [byteSize_append] at h1
      rw [← hbe, h1]
    rw [hs2, he2, hsplit, byteSlice_append_eq]
    omega
  · have hle : e ≤ s := by
      rw [← hbs, ← hbe]
      exact byteSize_take_mono content k2 k1 (le_of_lt (not_le.mp hk))
    have hes : e - s = 0 := by omega
    unfold byteSlice
    rw [hes, byteTake_zero]
    rfl

/-- Definition chunks write the revision into `rev` and nowhere else. -/
theorem chunk_by_definitions_setRev (path content lang r1 r2 : Str) (t : TreeNode) :
    chunk_by_definitions path content lang r1 t =
      (chunk_by_definitions path content lang r2 t).map (setRev r1) := by
  unfold chunk_by_definitions
  rw [List.map_filterMap]
  apply List.filterMap_congr
  intro n _
  split
  · rfl
  · rfl

/-- Subdivision commutes with replacing `rev`: it reads only the parent's
id, path, lang, symbol and code. -/
theorem subdivide_setRev (r : Str) (c : Chunk) :
    subdivide_large_chunk (setRev r c) = (subdivide_large_chunk c).map (setRev r) := by
  unfold subdivide_large_chunk
  rw [List.mapIdx_eq_enum_map, List.mapIdx_eq_enum_map, List.map_map]
  apply List.map_congr_left
  intro p _
  rfl

/-- Semantic chunks write the revision into `rev` and nowhere else. -/
theorem extract_semantic_setRev (path content lang r1 r2 : Str) (t : TreeNode) :
    extract_semantic_chunks path content lang r1 t =
      (extract_semantic_chunks path content lang r2 t).map (setRev r1) := by
  unfold extract_semantic_chunks
  rw [chunk_by_definitions_setRev path content lang r1 r2 t,
    List.map_flatten, List.map_map, List.map_map]
  congr 1
  apply List.map_congr_left
  intro c _
  show (if (setRev r1 c).size > 2000 then subdivide_large_chunk (setRev r1 c)
      else [setRev r1 c]) =
    (if c.size > 2000 then subdivide_large_chunk c else [c]).map (setRev r1)
  by_cases h : c.size > 2000
  · rw [if_pos h, if_pos (show (setRev r1 c).size > 2000 from h), subdivide_setRev]
  · rw [if_neg h, if_neg (show ¬ (setRev r1 c).size > 2000 from h)]
    rfl

/-- Symbol-context chunks write the revision into `rev` and nowhere else. -/
theorem contextSymbolChunks_setRev (path content lang r1 r2 : Str) (a : CodeAnalysisM) :
    contextSymbolChunks path content lang r1 a =
      (contextSymbolChunks path content lang r2 a).map (setRev r1) := by
  unfold contextSymbolChunks
  rw [List.map_filterMap]
  apply List.filterMap_congr
  intro s _
  dsimp only
  split
  · rfl
  · rfl

/-- The covered ranges read only ids, which `setRev` preserves. -/
theorem coveredRanges_setRev (r : Str) (l : List Chunk) :
    coveredRanges (l.map (setRev r)) = coveredRanges l := by
  unfold coveredRanges
  rw [List.map_map]
  congr 1

/-- A paired fold whose step commutes with a map on the accumulated list
commutes as a whole. -/
theorem foldl_pair_map {α β : Type} (f1 f2 : (List α × Nat) → β → (List α × Nat))
    (g : α → α)
    (hstep : ∀ st b, f1 (st.1.map g, st.2) b = ((f2 st b).1.map g, (f2 st b).2)) :
    ∀ (bs : List β) (st : List α × Nat),
      bs.foldl f1 (st.1.map g, st.2) = ((bs.foldl f2 st).1.map g, (bs.foldl f2 st).2)
  | [], st => rfl
  | b :: bs, st => by
    rw [List.foldl_cons, List.foldl_cons, hstep,
      foldl_pair_map f1 f2 g hstep bs (f2 st b)]

/-- Boundary-context chunks write the revision into `rev` and nowhere else;
the final cut position is revision-independent. -/
theorem contextBoundaryChunks_setRev (path content lang r1 r2 : Str)
    (a : CodeAnalysisM) (t : TreeNode) (cov : List (Nat × Nat)) :
    contextBoundaryChunks path content lang r1 a t cov =
      ((contextBoundaryChunks path content lang r2 a t cov).1.map (setRev r1),
        (contextBoundaryChunks path content lang r2 a t cov).2) := by
  unfold contextBoundaryChunks
  have h := foldl_pair_map
    (fun st boundary =>
      let start := st.2
      let isCovered := cov.any (fun r =>
        decide (r.1 ≤ start) && decide (boundary ≤ r.2))
      if ¬ isCovered ∧ boundary > start + 100 then
        let cc := byteSlice content start boundary
        let parts0 : List Str :=
          if fracLt { num := 5, den := 10 } a.complexity_score then
            [("Complex code section").toList] else []
        let chunkDeps := a.dependencies.filter (fun d => strContains cc d)
        let parts1 := if ¬ chunkDeps.isEmpty then
          parts0 ++ [("Dependencies: ").toList ++
            List.intercalate ((", ").toList) chunkDeps] else parts0
        let related := (a.symbols.filter (fun s =>
          decide (start ≤ s.start_byte) && decide (s.end_byte ≤ boundary))).map
          (fun s => s.name)
        let parts2 := if ¬ related.isEmpty then
          parts1 ++ [("Contains: ").toList ++
            List.intercalate ((", ").toList) related] else parts1
        (st.1 ++ [{ id := path ++ (":semantic:").toList ++ natStr start ++ ':' ::
                      natStr boundary
                    path := path
                    lang := lang
                    symbol := extract_primary_symbol cc lang t
                    rev := r1
                    size := boundary - start
                    code := cc
                    summary := if parts2.isEmpty then none
                      else some (List.intercalate ((" | ").toList) parts2) }], boundary)
      else st)
    (fun st boundary =>
      let start := st.2
      let isCovered := cov.any (fun r =>
        decide (r.1 ≤ start) && decide (boundary ≤ r.2))
      if ¬ isCovered ∧ boundary > start + 100 then
        let cc := byteSlice content start boundary
        let parts0 : List Str :=
          if fracLt { num := 5, den := 10 } a.complexity_score then
            [("Complex code section").toList] else []
        let chunkDeps := a.dependencies.filter (fun d => strContains cc d)
        let parts1 := if ¬ chunkDeps.isEmpty then
          parts0 ++ [("Dependencies: ").toList ++
            List.intercalate ((", ").toList) chunkDeps] else parts0
        let related := (a.symbols.filter (fun s =>
          decide (start ≤ s.start_byte) && decide (s.end_byte ≤ boundary))).map
          (fun s => s.name)
        let parts2 := if ¬ related.isEmpty then
          parts1 ++ [("Contains: ").toList ++
            List.intercalate ((", ").toList) related] else parts1
        (st.1 ++ [{ id := path ++ (":semantic:").toList ++ natStr start ++ ':' ::
                      natStr boundary
                    path := path
                    lang := lang
                    symbol := extract_primary_symbol cc lang t
                    rev := r2
                    size := boundary - start
                    code := cc
                    summary := if parts2.isEmpty then none
                      else some (List.intercalate ((" | ").toList) parts2) }], boundary)
      else st)
    (setRev r1)
    (by
      intro st b
      dsimp only
      split
      · rw [List.map_append]
        rfl
      · rfl)
    a.semantic_boundaries ([], 0)
  simpa using h

/-- The final context chunk writes the revision into `rev` and nowhere
else. -/
theorem contextFinalChunk_setRev (path content lang r1 r2 : Str) (a : CodeAnalysisM)
    (t : TreeNode) (cov : List (Nat × Nat)) (s : Nat) :
    contextFinalChunk path content lang r1 a t cov s =
      (contextFinalChunk path content lang r2 a t cov s).map (setRev r1) := by
  unfold contextFinalChunk
  dsimp only
  split
  · split
    · rfl
    · rfl
  · rfl

/-- `fallback_chunking` writes the revision into `rev` and nowhere else. -/
theorem fallback_chunking_setRev (path content lang r1 r2 : Str) :
    fallback_chunking path content lang r1 =
      (fallback_chunking path content lang r2).map (setRev r1) :=
  fallbackGoF_setRev path lang r1 r2 (rustLines content) (rustLines content).length 0

/-- The sort key parses the id, which `setRev` preserves. -/
theorem chunkStartKey_setRev (r : Str) (c : Chunk) :
    chunkStartKey (setRev r c) = chunkStartKey c := rfl

/-- Context extraction writes the revision into `rev` and nowhere else. -/
theorem extract_context_setRev (path content lang r1 r2 : Str) (a : CodeAnalysisM)
    (t : TreeNode) :
    extract_context_chunks path content lang r1 a t =
      (extract_context_chunks path content lang r2 a t).map (setRev r1) := by
  unfold extract_context_chunks
  split
  · exact fallback_chunking_setRev path content lang r1 r2
  · dsimp only
    rw [contextSymbolChunks_setRev path content lang r1 r2 a, coveredRanges_setRev]
    have hchunks :
        (if ¬ a.semantic_boundaries.isEmpty = true then
          (contextSymbolChunks path content lang r2 a).map (setRev r1) ++
            (contextBoundaryChunks path content lang r1 a t
              (coveredRanges (contextSymbolChunks path content lang r2 a))).1 ++
            contextFinalChunk path content lang r1 a t
              (coveredRanges (contextSymbolChunks path content lang r2 a))
              (contextBoundaryChunks path content lang r1 a t
                (coveredRanges (contextSymbolChunks path content lang r2 a))).2
        else (contextSymbolChunks path content lang r2 a).map (setRev r1)) =
        ((if ¬ a.semantic_boundaries.isEmpty = true then
          contextSymbolChunks path content lang r2 a ++
            (contextBoundaryChunks path content lang r2 a t
              (coveredRanges (contextSymbolChunks path content lang r2 a))).1 ++
            contextFinalChunk path content lang r2 a t
              (coveredRanges (contextSymbolChunks path content lang r2 a))
              (contextBoundaryChunks path content lang r2 a t
                (coveredRanges (contextSymbolChunks path content lang r2 a))).2
        else contextSymbolChunks path content lang r2 a)).map (setRev r1) := by
      split
      · rw [contextBoundaryChunks_setRev path content lang r1 r2,
          contextFinalChunk_setRev path content lang r1 r2,
          List.map_append, List.map_append]
      · rfl
    rw [hchunks]
    rw [show ∀ l : List Chunk, (l.map (setRev r1)).isEmpty = l.isEmpty from
      fun l => by cases l <;> rfl]
    split <;> split
    · exact fallback_chunking_setRev path content lang r1 r2
    · exact stableSort_map
        (fun c1 c2 => decide (chunkStartKey c1 < chunkStartKey c2))
        (fun c1 c2 => decide (chunkStartKey c1 < chunkStartKey c2))
        (setRev r1) (fun c1 c2 => rfl) _
    · exact fallback_chunking_setRev path content lang r1 r2
    · exact stableSort_map
        (fun c1 c2 => decide (chunkStartKey c1 < chunkStartKey c2))
        (fun c1 c2 => decide (chunkStartKey c1 < chunkStartKey c2))
        (setRev r1) (fun c1 c2 => rfl) _

/-- The whole dispatch writes the revision into `rev` and nowhere else: chunk
ids never contain the revision. -/
theorem dispatchChunks_setRev (tr : Option TreeNode) (path content lang r1 r2 : Str) :
    dispatchChunks tr path content lang r1 =
      (dispatchChunks tr path content lang r2).map (setRev r1) := by
  cases tr with
  | none => exact fallback_chunking_setRev path content lang r1 r2
  | some t =>
    unfold dispatchChunks
    dsimp only
    rw [extract_semantic_setRev path content lang r1 r2 t]
    rw [show ∀ l : List Chunk, (l.map (setRev r1)).isEmpty = l.isEmpty from
      fun l => by cases l <;> rfl]
    split
    · rfl
    · exact extract_context_setRev path content lang r1 r2 _ t

/-- Context extraction of non-empty content is non-empty: both escape hatches
delegate to the (non-empty) fallback, and the sort preserves length. -/
theorem extract_context_ne_nil (path content lang rev : Str) (a : CodeAnalysisM)
    (t : TreeNode) (h : content ≠ []) :
    extract_context_chunks path content lang rev a t ≠ [] := by
  unfold extract_context_chunks
  split
  · exact fallback_chunking_ne_nil path content lang rev h
  · dsimp only
    split <;> split
    · exact fallback_chunking_ne_nil path content lang rev h
    · next hne => exact stableSort_ne_nil _ _ hne
    · exact fallback_chunking_ne_nil path content lang rev h
    · next hne => exact stableSort_ne_nil _ _ hne

/-- The dispatch never returns an empty list for non-empty content. -/
theorem dispatchChunks_ne_nil (tr : Option TreeNode) (path content lang rev : Str)
    (h : content ≠ []) : dispatchChunks tr path content lang rev ≠ [] := by
  cases tr with
  | none => exact fallback_chunking_ne_nil path content lang rev h
  | some t =>
    unfold dispatchChunks
    dsimp only
    split
    · next hne =>
      intro h0
      rw [h0] at hne
      simp at hne
    · exact extract_context_ne_nil path content lang rev _ t h

/-- Definition chunks record their code's byte length by construction. -/
theorem chunk_by_definitions_sizeInv (path content lang rev : Str) (t : TreeNode) :
    ∀ c ∈ chunk_by_definitions path content lang rev t, c.size = byteSize c.code := by
  intro c hc
  unfold chunk_by_definitions at hc
  rw [List.mem_filterMap] at hc
  obtain ⟨n, hn, hfn⟩ := hc
  split at hfn
  · rw [Option.some.injEq] at hfn
    subst hfn
    rfl
  · exact absurd hfn (by simp)

/-- Sub-chunks record their code's byte length by construction. -/
theorem subdivide_sizeInv (c : Chunk) :
    ∀ d ∈ subdivide_large_chunk c, d.size = byteSize d.code := by
  intro d hd
  unfold subdivide_large_chunk at hd
  rw [List.mapIdx_eq_enum_map, List.mem_map] at hd
  obtain ⟨p, hp, rfl⟩ := hd
  rfl

/-- Semantic chunks record their code's byte length. -/
theorem extract_semantic_sizeInv (path content lang rev : Str) (t : TreeNode) :
    ∀ c ∈ extract_semantic_chunks path content lang rev t, c.size = byteSize c.code := by
  intro c hc
  unfold extract_semantic_chunks at hc
  rw [List.mem_flatten] at hc
  obtain ⟨l, hl, hcl⟩ := hc
  rw [List.mem_map] at hl
  obtain ⟨d, hd, rfl⟩ := hl
  split at hcl
  · exact subdivide_sizeInv d c hcl
  · rw [List.mem_singleton] at hcl
    subst hcl
    exact chunk_by_definitions_sizeInv path content lang rev t c hd

/-- Under a valid tree, every analyzed symbol's byte range lies on
boundaries. -/
theorem analysisSymbols_boundary (content lang : Str) (t : TreeNode)
    (hv : ValidTree content t) :
    ∀ s ∈ analysisSymbols content lang t,
      IsBoundary content s.start_byte ∧ IsBoundary content s.end_byte := by
  intro s hs
  unfold analysisSymbols at hs
  rw [List.mem_filterMap] at hs
  obtain ⟨n, hn, hfn⟩ := hs
  split at hfn
  · rcases Option.map_eq_some'.mp hfn with ⟨nm, hnm, rfl⟩
    exact hv n hn
  · exact absurd hfn (by simp)

/-- Under a valid tree, every emitted boundary offset is a boundary. -/
theorem findBoundaryOffsets_boundary (content : Str) (t : TreeNode)
    (hv : ValidTree content t) :
    ∀ b ∈ findBoundaryOffsets t, IsBoundary content b := by
  intro b hb
  unfold findBoundaryOffsets at hb
  rw [List.mem_flatten] at hb
  obtain ⟨l, hl, hbl⟩ := hb
  rw [List.mem_map] at hl
  obtain ⟨n, hn, rfl⟩ := hl
  have hnb := hv n hn
  split at hbl
  · rcases List.mem_cons.mp hbl with h1 | h1
    · exact h1 ▸ hnb.1
    · rw [List.mem_singleton] at h1
      exact h1 ▸ hnb.2
  · split at hbl
    · rw [List.mem_singleton] at hbl
      exact hbl ▸ hnb.2
    · split at hbl
      · rw [List.mem_singleton] at hbl
        exact hbl ▸ hnb.2
      · exact absurd hbl (List.not_mem_nil b)

/-- The enhanced analysis keeps the analyzer's symbol list. -/
theorem enhancedAnalysis_symbols (content lang : Str) (t : TreeNode) :
    (enhancedAnalysis content lang t).symbols = analysisSymbols content lang t := rfl

/-- Under a valid tree, every semantic boundary of the enhanced analysis is a
boundary of the content. -/
theorem enhancedAnalysis_boundary (content lang : Str) (t : TreeNode)
    (hv : ValidTree content t) :
    ∀ b ∈ (enhancedAnalysis content lang t).semantic_boundaries,
      IsBoundary content b := by
  intro b hb
  unfold enhancedAnalysis at hb
  dsimp only at hb
  have hb2 := mem_sortDedupNat _ _ hb
  rw [List.mem_append] at hb2
  rcases hb2 with h | h
  · unfold analyze_code_structure at h
    dsimp only at h
    have h2 := mem_sortDedupNat _ _ h
    rw [List.mem_append] at h2
    rcases h2 with h3 | h3 <;>
      exact findBoundaryOffsets_boundary content t hv _ (mem_sortDedupNat _ _ h3)
  · exact findBoundaryOffsets_boundary content t hv _ (mem_sortDedupNat _ _ h)

/-- Symbol-context chunks record their code's byte length: the slice between
the symbol's boundaries has exactly `end - start` bytes. -/
theorem contextSymbolChunks_sizeInv (path content lang rev : Str) (a : CodeAnalysisM)
    (hsym : ∀ s ∈ a.symbols,
      IsBoundary content s.start_byte ∧ IsBoundary content s.end_byte) :
    ∀ c ∈ contextSymbolChunks path content lang rev a, c.size = byteSize c.code := by
  intro c hc
  unfold contextSymbolChunks at hc
  rw [List.mem_filterMap] at hc
  obtain ⟨s, hs, hfs⟩ := hc
  have hsb := hsym s (List.mem_filter.mp hs).1
  dsimp only at hfs
  split at hfs
  · next hcond =>
    rw [Option.some.injEq] at hfs
    subst hfs
    have he : IsBoundary content (min s.end_byte (byteSize content)) :=
      isBoundary_min content _ _ hsb.2 (isBoundary_byteSize content)
    exact (byteSize_byteSlice content s.start_byte (min s.end_byte (byteSize content))
      hsb.1 he (le_of_lt hcond.1)).symm
  · exact absurd hfs (by simp)

/-- A paired fold preserving a chunk invariant and a state invariant. -/
theorem foldl_state_inv {β : Type} (P : Chunk → Prop) (Q : Nat → Prop)
    (step : (List Chunk × Nat) → β → (List Chunk × Nat)) (R : β → Prop)
    (hstep : ∀ st b, R b → (∀ c ∈ st.1, P c) → Q st.2 →
      (∀ c ∈ (step st b).1, P c) ∧ Q (step st b).2) :
    ∀ (bs : List β), (∀ b ∈ bs, R b) → ∀ st, (∀ c ∈ st.1, P c) → Q st.2 →
      (∀ c ∈ (bs.foldl step st).1, P c) ∧ Q (bs.foldl step st).2
  | [], _, st, h1, h2 => ⟨h1, h2⟩
  | b :: bs, hR, st, h1, h2 => by
    rw [List.foldl_cons]
    have hstb := hstep st b (hR b (List.mem_cons_self b bs)) h1 h2
    exact foldl_state_inv P Q step R hstep bs
      (fun x hx => hR x (List.mem_cons_of_mem b hx)) _ hstb.1 hstb.2

/-- Boundary-context chunks record their code's byte length, and the final
cut position is a boundary of the content. -/
theorem contextBoundaryChunks_inv (path content lang rev : Str) (a : CodeAnalysisM)
    (t : TreeNode) (cov : List (Nat × Nat))
    (hb : ∀ b ∈ a.semantic_boundaries, IsBoundary content b) :
    (∀ c ∈ (contextBoundaryChunks path content lang rev a t cov).1,
      c.size = byteSize c.code) ∧
    IsBoundary content (contextBoundaryChunks path content lang rev a t cov).2 := by
  unfold contextBoundaryChunks
  refine foldl_state_inv (fun c => c.size = byteSize c.code) (IsBoundary content) _
    (IsBoundary content) ?_ a.semantic_boundaries hb ([], 0)
    (by intro c hc; exact absurd hc (List.not_mem_nil c)) (isBoundary_zero content)
  intro st b hRb h1 h2
  dsimp only
  split
  · next hcond =>
    constructor
    · intro c hc
      rw [List.mem_append] at hc
      rcases hc with hc | hc
      · exact h1 c hc
      · rw [List.mem_singleton] at hc
        subst hc
        exact (byteSize_byteSlice content st.2 b h2 hRb (by omega)).symm
    · exact hRb
  · exact ⟨h1, h2⟩

/-- The final context chunk records its code's byte length when cut at a
boundary. -/
theorem contextFinalChunk_sizeInv (path content lang rev : Str) (a : CodeAnalysisM)
    (t : TreeNode) (cov : List (Nat × Nat)) (s : Nat) (hs : IsBoundary content s) :
    ∀ c ∈ contextFinalChunk path content lang rev a t cov s,
      c.size = byteSize c.code := by
  intro c hc
  unfold contextFinalChunk at hc
  split at hc
  · dsimp only at hc
    split at hc
    · rw [List.mem_singleton] at hc
      subst hc
      exact (byteSize_byteSlice content s (byteSize content) hs
        (isBoundary_byteSize content) (isBoundary_le content s hs)).symm
    · exact absurd hc (List.not_mem_nil c)
  · exact absurd hc (List.not_mem_nil c)

/-- Fallback chunks record their code's byte length. -/
theorem fallback_chunking_sizeInv (path content lang rev : Str) :
    ∀ c ∈ fallback_chunking path content lang rev, c.size = byteSize c.code :=
  fun c hc => fallbackGoF_sizeInv path lang rev (rustLines content)
    (rustLines content).length 0 c hc

/-- Context chunks record their code's byte length when symbols and
boundaries of the analysis lie on boundaries of the content. -/
theorem extract_context_sizeInv (path content lang rev : Str) (a : CodeAnalysisM)
    (t : TreeNode)
    (hsym : ∀ s ∈ a.symbols,
      IsBoundary content s.start_byte ∧ IsBoundary content s.end_byte)
    (hb : ∀ b ∈ a.semantic_boundaries, IsBoundary content b) :
    ∀ c ∈ extract_context_chunks path content lang rev a t,
      c.size = byteSize c.code := by
  intro c hc
  unfold extract_context_chunks at hc
  split at hc
  · exact fallback_chunking_sizeInv path content lang rev c hc
  · dsimp only at hc
    split at hc <;> split at hc
    · exact fallback_chunking_sizeInv path content lang rev c hc
    · have hc2 := mem_stableSort _ _ _ hc
      rw [List.mem_append] at hc2
      rcases hc2 with hc3 | hc3
      · rw [List.mem_append] at hc3
        rcases hc3 with hc4 | hc4
        · exact contextSymbolChunks_sizeInv path content lang rev a hsym c hc4
        · exact (contextBoundaryChunks_inv path content lang rev a t _ hb).1 c hc4
      · exact contextFinalChunk_sizeInv path content lang rev a t _ _
          (contextBoundaryChunks_inv path content lang rev a t _ hb).2 c hc3
    · exact fallback_chunking_sizeInv path content lang rev c hc
    · have hc2 := mem_stableSort _ _ _ hc
      exact contextSymbolChunks_sizeInv path content lang rev a hsym c hc2

/-- Every dispatched chunk records its code's byte length, given tree
validity (trivial without a tree). -/
theorem dispatchChunks_sizeInv (tr : Option TreeNode) (path content lang rev : Str)
    (hv : ValidTreeOpt content tr) :
    ∀ c ∈ dispatchChunks tr path content lang rev, c.size = byteSize c.code := by
  cases tr with
  | none => exact fallback_chunking_sizeInv path content lang rev
  | some t =>
    intro c hc
    unfold dispatchChunks at hc
    dsimp only at hc
    split at hc
    · exact extract_semantic_sizeInv path content lang rev t c hc
    · have hv2 : ValidTree content t := hv
      refine extract_context_sizeInv path content lang rev _ t ?_ ?_ c hc
      · rw [enhancedAnalysis_symbols]
        exact analysisSymbols_boundary content lang t hv2
      · exact enhancedAnalysis_boundary content lang t hv2

/-! Claim theorems. -/

/-- Claim C1 (amended): for every language — i.e. every parse outcome
`tree?`, covering both the AST strategies and the fallback — `chunk_file`
always succeeds and produces at least one chunk *before* the size filter
whenever the content is non-empty; the returned list retains exactly the
optimized chunks whose byte size lies in `[100, 2000]` and is therefore
non-empty iff some optimized chunk is within those bounds — it can be empty
for non-empty content. -/
theorem claim1_theorem (tree? : Option TreeNode) (path content lang rev : Str)
    (h : content ≠ []) :
    dispatchChunks tree? path content lang rev ≠ [] ∧
    optimize_chunks (dispatchChunks tree? path content lang rev) ≠ [] ∧
    (chunk_file tree? path content lang rev ≠ [] ↔
      ∃ ch ∈ optimize_chunks (dispatchChunks tree? path content lang rev),
        sizeWithinConfig ch = true) := by
  have hfb := dispatchChunks_ne_nil tree? path content lang rev h
  refine ⟨hfb, optimize_chunks_ne_nil _ hfb, ?_⟩
  have hlen : (chunk_file tree? path content lang rev).length =
      ((optimize_chunks (dispatchChunks tree? path content lang rev)).filter
        sizeWithinConfig).length := by
    have := congrArg List.length (chunk_file_erase tree? path content lang rev)
    simpa using this
  constructor
  · intro hne
    have hfil_ne : (optimize_chunks (dispatchChunks tree? path content lang
        rev)).filter sizeWithinConfig ≠ [] := by
      intro h0
      rw [h0] at hlen
      exact hne (List.length_eq_zero.mp hlen)
    obtain ⟨x, hx⟩ := List.exists_mem_of_ne_nil _ hfil_ne
    have hmf := List.mem_filter.mp hx
    exact ⟨x, hmf.1, hmf.2⟩
  · rintro ⟨ch, hmem, hpred⟩ hnil
    rw [hnil] at hlen
    have hpos := List.length_pos.mpr
      (List.ne_nil_of_mem (List.mem_filter.mpr ⟨hmem, hpred⟩))
    simp at hlen
    omega

/-- Counterexample for claim C1 as stated: the non-empty one-byte file `"x"`
yields an empty chunk list — its sole 1-byte chunk is removed by the size
filter. -/
theorem claim1_counterexample :
    ("x").toList ≠ [] ∧
    chunk_file none ("p").toList ("x").toList ("text").toList ("r").toList = [] := by
  decide

/-- Witness for claim C1 (amended) at the 150-byte single-line file without a
parse tree. -/
theorem claim1_witness :
    dispatchChunks none ("p").toList contentA ("text").toList ("r").toList ≠ [] ∧
    optimize_chunks (dispatchChunks none ("p").toList contentA ("text").toList
      ("r").toList) ≠ [] ∧
    (chunk_file none ("p").toList contentA ("text").toList ("r").toList ≠ [] ↔
      ∃ ch ∈ optimize_chunks (dispatchChunks none ("p").toList contentA
        ("text").toList ("r").toList), sizeWithinConfig ch = true) :=
  claim1_theorem none ("p").toList contentA ("text").toList ("r").toList (by decide)

/-- Claim C2 (amended): every chunk returned by `chunk_file` — for every
parse outcome `tree?` — has byte size in `[MIN_CHUNK, MAX_CHUNK] =
[100, 2000]`; there is no exception for a file's sole chunk — a sole chunk
outside the bounds is dropped like any other. -/
theorem claim2_theorem (tree? : Option TreeNode) (path content lang rev : Str)
    (ch : Chunk) (hch : ch ∈ chunk_file tree? path content lang rev) :
    100 ≤ ch.size ∧ ch.size ≤ 2000 := by
  have h1 : eraseSummary ch ∈
      (chunk_file tree? path content lang rev).map eraseSummary :=
    List.mem_map_of_mem eraseSummary hch
  rw [chunk_file_erase] at h1
  rcases List.mem_map.mp h1 with ⟨c0, hc0, hce⟩
  have hsz' := congrArg Chunk.size hce
  have hsz : c0.size = ch.size := hsz'
  have hp := (List.mem_filter.mp hc0).2
  have hb : 100 ≤ c0.size ∧ c0.size ≤ 2000 := of_decide_eq_true hp
  exact ⟨hsz ▸ hb.1, hsz ▸ hb.2⟩

/-- Counterexample for claim C2 as stated: the file `"ab"` yields exactly one
optimized chunk (a sole chunk), yet `chunk_file` returns the empty list — the
sole chunk is not retained. -/
theorem claim2_counterexample :
    (optimize_chunks (dispatchChunks none ("p").toList ("ab").toList ("text").toList
      ("r").toList)).length = 1 ∧
    chunk_file none ("p").toList ("ab").toList ("text").toList ("r").toList = [] := by
  decide

/-- Witness for claim C2 (amended): the 150-byte chunk kept for `contentA`
is within the bounds. -/
theorem claim2_witness : 100 ≤ chunkA.size ∧ chunkA.size ≤ 2000 :=
  claim2_theorem none ("p").toList contentA ("text").toList ("r").toList chunkA
    (by decide)

/-- Claim C4: `validate_proof_of_possession` accepts an empty `file_hashes`
map; otherwise it accepts iff at least one entry is accepted, where an entry
is accepted when its expected hash is `"dummy_hash"` or the file at its path
reads back with exactly the expected SHA-256 hex digest; mismatches and read
errors reject the entry, and a request whose entries are all rejected is
refused. -/
theorem claim4_theorem (readFile : Str → Option (List Nat)) (sha256hex : List Nat → Str)
    (entries : List (Str × Str)) :
    validate_proof_of_possession readFile sha256hex entries = true ↔
      (entries = [] ∨
        ∃ e ∈ entries, e.2 = ("dummy_hash").toList ∨
          ∃ content, readFile e.1 = some content ∧ sha256hex content = e.2) := by
  by_cases h : entries = []
  · simp [validate_proof_of_possession, h]
  · simp only [validate_proof_of_possession, if_neg h, decide_eq_true_eq]
    rw [List.countP_pos_iff]
    constructor
    · rintro ⟨e, he, hacc⟩
      exact Or.inr ⟨e, he, (entryAccepted_iff readFile sha256hex e).mp hacc⟩
    · rintro (hnil | ⟨e, he, hacc⟩)
      · exact absurd hnil h
      · exact ⟨e, he, (entryAccepted_iff readFile sha256hex e).mpr hacc⟩

/-- Claim C3: with non-empty (`Some`) repo and branch filters, every chunk
returned by `search_similar` has a path satisfying the repo-match predicate
(path component, or substring, or wildcard repo `""`/`"."`/`"*"`), and comes
from a raw hit whose payload `branch` field equals the branch filter; its
score is that hit's score. -/
theorem claim3_theorem (raw : List ScoredPoint) (repo branch : Str) :
    ∀ x ∈ search_similar raw (some repo) (some branch),
      repoMatchCore x.1.path repo = true ∧
      ∃ pt ∈ raw, payloadGetString pt.payload (("path").toList) = some x.1.path ∧
        payloadGetString pt.payload (("branch").toList) = some branch ∧
        x.2 = pt.score := by
  intro x hx
  simp only [search_similar, List.mem_filterMap] at hx
  obtain ⟨pt, hpt, hbody⟩ := hx
  by_cases hc : (matchesRepo pt.payload repo && matchesBranch pt.payload branch) = true
  · rw [if_pos hc] at hbody
    simp only [Bool.and_eq_true] at hc
    obtain ⟨hmr, hmb⟩ := hc
    rcases Option.map_eq_some'.mp hbody with ⟨c, hchunk, hxc⟩
    have hpath := payload_to_chunk_path pt.payload c hchunk
    unfold matchesRepo at hmr
    rw [hpath] at hmr
    unfold matchesBranch at hmb
    cases hb : payloadGetString pt.payload (("branch").toList) <;> rw [hb] at hmb
    · exact absurd hmb (by simp)
    · subst hxc
      refine ⟨hmr, pt, hpt, hpath, ?_, rfl⟩
      rw [hb, Option.some.injEq]
      exact of_decide_eq_true hmb
  · rw [if_neg hc] at hbody
    exact absurd hbody (by simp)

/-- Witness for claim C3: the single matching hit `pointW` is returned for
repo `forge` and branch `R1`, and satisfies the guarantees. -/
theorem claim3_witness :
    repoMatchCore (chunkPointW, ({ num := 1, den := 2 } : Frac)).1.path (("forge").toList) =
      true ∧
    ∃ pt ∈ [pointW],
      payloadGetString pt.payload (("path").toList) =
        some (chunkPointW, ({ num := 1, den := 2 } : Frac)).1.path ∧
      payloadGetString pt.payload (("branch").toList) = some (("R1").toList) ∧
      (chunkPointW, ({ num := 1, den := 2 } : Frac)).2 = pt.score :=
  claim3_theorem [pointW] (("forge").toList) (("R1").toList)
    (chunkPointW, { num := 1, den := 2 }) (by decide)

/-- Claim C5: with a positive `batch_size`, `process_file` splits the chunk
list into consecutive batches that concatenate back to the list, each
non-empty and of length at most `batch_size`, with every batch before the
last of length exactly `batch_size`; each batch goes to `embed_batch`, a
vector-count mismatch or embedder error fails the batch, and the first
failing batch makes `process_file` return an error while exactly the upserts
of the earlier batches remain. -/
theorem claim5_theorem {V : Type} (embed : List Str → Option (List V)) (batchSize : Nat)
    (chunks : List Chunk) (hn : 0 < batchSize) :
    (∀ b ∈ chunksOf batchSize chunks, b ≠ [] ∧ b.length ≤ batchSize) ∧
    (∀ b ∈ (chunksOf batchSize chunks).dropLast, b.length = batchSize) ∧
    (chunksOf batchSize chunks).flatten = chunks ∧
    (∀ (pre : List (List Chunk)) (b : List Chunk) (post : List (List Chunk)),
      chunksOf batchSize chunks = pre ++ b :: post →
      (∀ p ∈ pre, process_chunk_batch embed p ≠ none) →
      process_chunk_batch embed b = none →
      process_file embed batchSize chunks = ((pre.map (batchUpserts embed)).flatten, false)) := by
  refine ⟨?_, ?_, ?_, ?_⟩
  · exact chunksOf_mem_props batchSize hn chunks.length chunks le_rfl
  · exact chunksOf_dropLast_props batchSize hn chunks.length chunks le_rfl
  · exact chunksOf_flatten batchSize hn chunks.length chunks le_rfl
  · intro pre b post hdec hpre hb
    unfold process_file
    rw [hdec]
    exact processBatchList_fail embed pre b post hpre hb

/-- Witness for claim C5: three one-character chunks with `batch_size = 2`
split into the batches `[a, b]` and `[c]`; the embedder answers the first
batch and fails the second, so the file errors with the first batch's two
upserts in place. -/
theorem claim5_witness :
    process_file embedW 2 [chunkPa, chunkPb, chunkPc] =
      (([[chunkPa, chunkPb]].map (batchUpserts embedW)).flatten, false) :=
  (claim5_theorem embedW 2 [chunkPa, chunkPb, chunkPc] (by decide)).2.2.2
    [[chunkPa, chunkPb]] [chunkPc] [] (by decide)
    (by
      intro p hp
      simp only [List.mem_singleton] at hp
      subst hp
      decide)
    (by decide)

/-- Claim C6 (amended): in `optimize_chunks`, when a chunk is below
`MIN_CHUNK = 100` bytes and a next chunk of the same language exists, the two
are concatenated **exactly** when combined size < 5000 AND (similarity > 0.3
OR combined size < 3000) — not when combined < 5000 OR similarity > 0.3 as
the claim stated. -/
theorem claim6_theorem (c1 c2 : Chunk) (rest : List Chunk) (h1 : c1.size < 100)
    (h2 : c1.lang = c2.lang) :
    ((optimize_chunks (c1 :: c2 :: rest)).head?.map (fun c => c.code) =
        some (c1.code ++ '\n' :: c2.code)) ↔
      ((fracLt { num := 3, den := 10 } (calculate_chunk_similarity c1 c2) = true ∨
          c1.size + c2.size < 3000) ∧ c1.size + c2.size < 5000) := by
  rw [← shouldMerge_iff c1 c2 h2]
  simp only [optimize_chunks, if_pos h1]
  by_cases hm : shouldMerge c1 c2 = true
  · rw [if_pos hm]
    simp only [List.head?_cons, Option.map_some']
    constructor
    · intro _
      exact hm
    · intro _
      rw [(withComplexitySummary_size_code _).2]
      rfl
  · rw [if_neg hm]
    simp only [List.head?_cons, Option.map_some']
    constructor
    · intro heq
      exfalso
      rw [(withComplexitySummary_size_code c1).2] at heq
      have hinj := Option.some.inj heq
      have hlen := congrArg List.length hinj
      rw [List.length_append, List.length_cons] at hlen
      omega
    · intro hc
      exact absurd hc hm

/-- Counterexample for claim C6 as stated: two same-language chunks of sizes
90 and 3910 (combined 4000 < 5000) with similarity exactly 0 are NOT merged —
the code also requires similarity > 0.3 or combined < 3000. -/
theorem claim6_counterexample :
    chunkSmallL.size < 100 ∧ chunkSmallL.lang = chunkBigR.lang ∧
    chunkSmallL.size + chunkBigR.size < 5000 ∧
    (optimize_chunks [chunkSmallL, chunkBigR]).map (fun c => c.code) =
      [chunkSmallL.code, chunkBigR.code] ∧
    (optimize_chunks [chunkSmallL, chunkBigR]).length = 2 := by decide

/-- Witness for claim C6 (amended) at two small chunks (combined 90 < 3000,
so they merge). -/
theorem claim6_witness :
    ((optimize_chunks (chunkW1 :: chunkW2 :: [])).head?.map (fun c => c.code) =
        some (chunkW1.code ++ '\n' :: chunkW2.code)) ↔
      ((fracLt { num := 3, den := 10 } (calculate_chunk_similarity chunkW1 chunkW2) = true ∨
          chunkW1.size + chunkW2.size < 3000) ∧ chunkW1.size + chunkW2.size < 5000) :=
  claim6_theorem chunkW1 chunkW2 [] (by decide) (by decide)

/-- Claim C8 (amended): chunk ids are derived from the path and the
byte/line range only — the revision never enters the id, so chunking the same
path and content under two different revision strings yields the same id
sequence (the `rev` field differs); identical content at identical position
yields the same id. -/
theorem claim8_theorem (tree? : Option TreeNode) (path content lang r1 r2 : Str) :
    (chunk_file tree? path content lang r1).map (fun c => c.id) =
      (chunk_file tree? path content lang r2).map (fun c => c.id) := by
  have hfil : (optimize_chunks (dispatchChunks tree? path content lang r1)).filter
      sizeWithinConfig =
      ((optimize_chunks (dispatchChunks tree? path content lang r2)).filter
        sizeWithinConfig).map (setRev r1) := by
    rw [dispatchChunks_setRev tree? path content lang r1 r2, optimize_map_setRev,
      filter_sizeWithinConfig_setRev]
  have i1 := map_id_of_erase _ _ (chunk_file_erase tree? path content lang r1)
  have i2 := map_id_of_erase _ _ (chunk_file_erase tree? path content lang r2)
  rw [i1, i2, hfil, List.map_map]
  rfl

/-- Counterexample for claim C8 as stated: the same path and content chunked
under revisions `r1` and `r2` yield identical ids (the claim asserts they
differ), while the `rev` fields do differ and the lists are non-empty. -/
theorem claim8_counterexample :
    ("r1").toList ≠ ("r2").toList ∧
    (chunk_file none ("p").toList contentA ("text").toList ("r1").toList).map
      (fun c => c.id) =
      (chunk_file none ("p").toList contentA ("text").toList ("r2").toList).map
        (fun c => c.id) ∧
    (chunk_file none ("p").toList contentA ("text").toList ("r1").toList).map
      (fun c => c.rev) ≠
      (chunk_file none ("p").toList contentA ("text").toList ("r2").toList).map
        (fun c => c.rev) ∧
    chunk_file none ("p").toList contentA ("text").toList ("r1").toList ≠ [] := by
  decide

/-- Claim C9: every chunk returned by `chunk_file` records in `size` the byte
length of its `code` — for every parse outcome `tree?`, covering every chunk
construction: the definition, subdivision, symbol-, boundary- and
final-context constructors of the AST strategies, the fallback windows, and
the re-established equality of the optimize merge.  For the AST constructors
whose `size` is a range difference, the equality rests on the tree's byte
offsets being char boundaries of the content (`ValidTreeOpt`), tree-sitter's
contract, without which the source's slicing `&content[start..end]` panics. -/
theorem claim9_theorem (tree? : Option TreeNode) (path content lang rev : Str)
    (hv : ValidTreeOpt content tree?) (ch : Chunk)
    (hch : ch ∈ chunk_file tree? path content lang rev) :
    ch.size = byteSize ch.code := by
  have h1 : eraseSummary ch ∈
      (chunk_file tree? path content lang rev).map eraseSummary :=
    List.mem_map_of_mem eraseSummary hch
  rw [chunk_file_erase] at h1
  rcases List.mem_map.mp h1 with ⟨c0, hc0, hce⟩
  have hsz' := congrArg Chunk.size hce
  have hsz : c0.size = ch.size := hsz'
  have hcd' := congrArg Chunk.code hce
  have hcd : c0.code = ch.code := hcd'
  have hmem := (List.mem_filter.mp hc0).1
  have hinv := optimize_chunks_sizeInv (dispatchChunks tree? path content lang rev)
    (dispatchChunks_sizeInv tree? path content lang rev hv) c0 hmem
  rw [hsz, hcd] at hinv
  exact hinv

/-- Witness for claim C9 at the 150-byte single-line file without a parse
tree (the validity hypothesis is vacuous for `none`). -/
theorem claim9_witness :
    ValidTreeOpt contentA (none : Option TreeNode) ∧
    chunkA.size = byteSize chunkA.code :=
  ⟨trivial, claim9_theorem none ("p").toList contentA ("text").toList ("r").toList
    trivial chunkA (by decide)⟩

/-- Claim C7 (code bug): the pipeline's language detection
(`IndexingPipeline::get_language_from_path`) maps `foo.rs` to the raw
lowercased extension `rs` — not the canonical tag `rust` — and `foo.unknown`
to `unknown` — not `text` ( `text` is produced only for extension-less
paths); the domain-level detector together with its caller's
`unwrap_or("text")` does implement the claimed mapping. -/
theorem claim7_theorem :
    get_language_from_path (("foo.rs").toList) = ("rs").toList ∧
    get_language_from_path (("foo.unknown").toList) = ("unknown").toList ∧
    ("rs").toList ≠ ("rust").toList ∧ ("unknown").toList ≠ ("text").toList ∧
    (detect_language_from_extension (("foo.rs").toList)).getD (("text").toList) =
      ("rust").toList ∧
    (detect_language_from_extension (("foo.unknown").toList)).getD (("text").toList) =
      ("text").toList := by decide

/-- Claim C10: the health handler answers every request with status
`"healthy"` and `uptime_seconds = 0`, independently of the `?detailed`
query flag. -/
theorem claim10_theorem (detailed : Bool) (version : Str) :
    (health_handler detailed version).status = ("healthy").toList ∧
    (health_handler detailed version).uptime_seconds = 0 ∧
    health_handler detailed version = health_handler (!detailed) version :=
  ⟨rfl, rfl, rfl⟩

end Forge
